import Mathlib

/-!
A shallow embedding of the scheduling core of `src/lib/Driver/Compilation.cpp`
(the swift driver's `Compilation` class): the recursive task-graph walk
`performJobsInList`, its local lambda `scheduleCommandIfNecessaryAndPossible`,
the completion callbacks `taskFinished` / `taskSignalled`, the single-command
fast path `performSingleCommand`, and the entry point `performJobs`.

Modelling decisions, in one place:

* A `Job` is identified by reference identity in the C++ code (`DenseSet<const
  Job *>`, `DenseMap<const Job *, ...>`); the model gives every `Job` a numeric
  `id` and uses the `id` wherever the code compares or hashes pointers.
* `DependencyGraph` lives outside `src/` (only `#include`d here), so it is
  modelled from the spec as an abstract state machine `DepGraphModel` exposing
  exactly the four operations the core calls (`loadFromPath`,
  `markIntransitive`, `isMarked`, `markTransitive`); each invocation of
  `performJobsInList` constructs a fresh graph (`DepGraph` is a local).
* `TaskQueue` is likewise external.  Submission (`TQ->addTask`) is recorded in
  a per-invocation list `tq`; `TQ->execute` is modelled by folding the two
  completion callbacks over an externally supplied list of completion events
  (the schedule chosen by the executor).  A trace oracle `Nat → List TaskEvent`
  supplies one event list per invocation of `performJobsInList`, in the order
  the invocations reach their `execute` call.
* `llvm_unreachable` and a failing `assert` abort the process; the model sets
  a `crashed` flag, after which every operation leaves the state unchanged.
* Output relaying (stderr / parseable stream) is not modelled; diagnostics
  emitted through `Diags.diagnose` are, as a list of `Diag` values.
* `SharedState.allSubmitted` and `SharedState.attempts` are instrumentation:
  `allSubmitted` records every `TQ->addTask` call of the whole run (across all
  nested invocations and their queues) and `attempts` records every call of
  `scheduleCommandIfNecessaryAndPossible`.  Neither influences any decision.
-/

/-- `Job::Condition` (the run-condition of a job). -/
inductive Condition where
  | Always
  | CheckDependencies
deriving DecidableEq, Repr

/-- `DependencyGraphImpl::LoadResult`. -/
inductive LoadResult where
  | Valid
  | HadError
  | NeedsRebuilding
deriving DecidableEq, Repr

/-- The ways the scheduling core aborts the process: the two
`llvm_unreachable` calls (initial load / reload returning `NeedsRebuilding`)
and the `assert(State.BlockingCommands.empty())` at the end of
`performJobsInList`. -/
inductive Crash where
  | unreachableFreshLoad
  | unreachableReload
  | assertBlocking
deriving DecidableEq, Repr

/-- The slice of `Tool` the core consumes: a diagnostic name
(`getNameForDiagnostics`) and the `hasGoodDiagnostics` capability. -/
structure Tool where
  name : String
  goodDiags : Bool
deriving DecidableEq, Repr

/-- A `Job`: its id stands for the C++ object's address; `inputs` is
`getInputs()` (itself a `JobList`), `depFile` is
`getOutput().getAdditionalOutputForType(types::TY_SwiftDeps)` (`none` for an
empty `StringRef`), `cond` is `getCondition()` and `tool` is `getCreator()`.
The executable path and arguments are carried only to be handed to the
executor and are not interpreted by the scheduler. -/
inductive Job where
  | mk (id : Nat) (inputs : List Job) (execPath : String) (args : List String)
       (depFile : Option String) (cond : Condition) (tool : Tool)

/-- The job's identity (stands for the pointer value). -/
def Job.id : Job → Nat
  | .mk i _ _ _ _ _ _ => i

/-- `Job::getInputs()`. -/
def Job.inputs : Job → List Job
  | .mk _ is _ _ _ _ _ => is

/-- `Job::getExecutable()`. -/
def Job.execPath : Job → String
  | .mk _ _ e _ _ _ _ => e

/-- The swiftdeps path from the job's `CommandOutput`, if any. -/
def Job.depFile : Job → Option String
  | .mk _ _ _ _ d _ _ => d

/-- `Job::getCondition()`. -/
def Job.cond : Job → Condition
  | .mk _ _ _ _ _ c _ => c

/-- `Job::getCreator()`. -/
def Job.tool : Job → Tool
  | .mk _ _ _ _ _ _ t => t

/-- Diagnostics the core can emit through `Diags.diagnose`. -/
inductive Diag where
  | commandFailed (toolName : String) (code : Int)
  | commandSignalled (toolName : String)
  | unableToExecute (msg : String)
  | parallelNotSupported
deriving DecidableEq, Repr

/-- A completion event delivered by the executor: the context pointer (the
job), and either a normal exit with a return code or abnormal termination
with an optional error message. -/
inductive TaskEvent where
  | finished (cmd : Job) (returnCode : Int)
  | signalled (cmd : Job) (errorMsg : String)

/-- The id of the job a completion event is about. -/
def TaskEvent.jobId : TaskEvent → Nat
  | .finished c _ => c.id
  | .signalled c _ => c.id

/-- Whether the event is a normal completion with exit code 0. -/
def TaskEvent.isSuccess : TaskEvent → Bool
  | .finished _ rc => rc = 0
  | .signalled _ _ => false

/-- Modelled from the spec: the `DependencyGraph` collaborator (its sources
are outside `src/`); an abstract state machine over a state type `γ` with the
four operations the scheduling core invokes, per spec section 6:
`load(task, path)`, `mark_narrow(task)` (`markIntransitive`),
`is_marked(task)`, `mark_transitive(task) -> list<task>`. -/
structure DepGraphModel (γ : Type) where
  emptyGraph : γ
  load : γ → Nat → String → γ × LoadResult
  markIntransitive : γ → Nat → γ
  isMarked : γ → Nat → Bool
  markTransitive : γ → Nat → γ × List Job

/-- `Compilation::PerformJobsState` plus the run-wide observables: the
diagnostics emitted so far, the instrumentation lists and the crash flag.
This is the state shared by every (nested) invocation of
`performJobsInList`. -/
structure SharedState where
  scheduled : List Nat
  finished : List Nat
  blocking : List (Nat × List Job)
  diags : List Diag
  allSubmitted : List Nat
  attempts : List Nat
  crashed : Option Crash

/-- The shared state at the start of a run. -/
def initialShared : SharedState :=
  ⟨[], [], [], [], [], [], none⟩

/-- The state of one invocation of `performJobsInList`: the shared state plus
the invocation's locals — its task queue (`TQ`, as the list of added tasks in
order), its fresh dependency graph, `DeferredCommands`,
`NeedToRunEverything`, and `Result`. -/
structure InvState (γ : Type) where
  sh : SharedState
  tq : List Job
  dg : γ
  deferred : List Job
  needToRun : Bool
  result : Int

/-- Record a crash (`llvm_unreachable` / failed `assert`). -/
def setCrash {γ : Type} (st : InvState γ) (c : Crash) : InvState γ :=
  { st with sh := { st.sh with crashed := some c } }

/-- `findUnfinishedJob`: the first job of the list that is not in
`FinishedCommands`. -/
def findUnfinishedJob (jl : List Job) (fin : List Nat) : Option Job :=
  jl.find? (fun c => !(fin.contains c.id))

/-- Insert into a `DenseSet` modelled as a list: append if absent. -/
def insertId (l : List Nat) (i : Nat) : List Nat :=
  if l.contains i then l else l ++ [i]

/-- Insert a job into a job set (`SmallPtrSet`), dedup by id. -/
def insertJob (l : List Job) (c : Job) : List Job :=
  if l.any (fun x => x.id == c.id) then l else l ++ [c]

/-- `State.BlockingCommands[k].push_back(c)`: append `c` to the entry keyed
`k`, creating the entry if absent.  Keys are unique for every map built from
`[]` by this operation, mirroring `DenseMap`. -/
def pushBlocking (m : List (Nat × List Job)) (k : Nat) (c : Job) :
    List (Nat × List Job) :=
  if m.any (fun e => e.1 == k) then
    m.map (fun e => if e.1 == k then (e.1, e.2 ++ [c]) else e)
  else
    m ++ [(k, [c])]

/-- The jobs blocked on key `k` (the `TinyPtrVector` found for `k`; the
concatenation over duplicate keys is a benign totalisation — maps built by
`pushBlocking` from `[]` have unique keys, as `DenseMap` does). -/
def blockedOn (m : List (Nat × List Job)) (k : Nat) : List Job :=
  (m.filter (fun e => e.1 == k)).foldr (fun e acc => e.2 ++ acc) []

/-- `State.BlockingCommands.erase` for key `k`. -/
def eraseBlocking (m : List (Nat × List Job)) (k : Nat) :
    List (Nat × List Job) :=
  m.filter (fun e => !(e.1 == k))

/-- `scheduleCommandIfNecessaryAndPossible` (the lambda at lines 99–112):
if the command is already in `ScheduledCommands`, do nothing; otherwise, if
some input is unfinished, register the command as blocked on the first such
input; otherwise insert it into `ScheduledCommands` and add it to the task
queue.  The call itself is recorded in `attempts` (instrumentation). -/
def schedule {γ : Type} (st : InvState γ) (cmd : Job) : InvState γ :=
  let st := { st with sh := { st.sh with attempts := st.sh.attempts ++ [cmd.id] } }
  if st.sh.scheduled.contains cmd.id then st
  else
    match findUnfinishedJob cmd.inputs st.sh.finished with
    | some b =>
        { st with sh := { st.sh with blocking := pushBlocking st.sh.blocking b.id cmd } }
    | none =>
        { st with
          sh := { st.sh with
                  scheduled := st.sh.scheduled ++ [cmd.id],
                  allSubmitted := st.sh.allSubmitted ++ [cmd.id] },
          tq := st.tq ++ [cmd] }

/-- Fold `schedule` over a list of jobs (the loops over
`DeferredCommands` and over a popped blocking entry). -/
def scheduleAll {γ : Type} (st : InvState γ) (l : List Job) : InvState γ :=
  l.foldl schedule st

/-- One iteration of the main walk loop (lines 121–155), after the recursive
call on the job's inputs has already been performed: if
`NeedToRunEverything`, schedule unconditionally; otherwise consult the
dependency record (if named by the output descriptor) to pick the effective
condition, then either schedule (and narrowly mark) or defer. -/
def processOneJob {γ : Type} (O : DepGraphModel γ) (st : InvState γ) (cmd : Job) :
    InvState γ :=
  if st.sh.crashed.isSome then st
  else if st.needToRun then schedule st cmd
  else
    match cmd.depFile with
    | none => schedule st cmd
    | some path =>
      match O.load st.dg cmd.id path with
      | (g2, LoadResult.HadError) =>
          schedule { st with dg := g2, needToRun := true } cmd
      | (g2, LoadResult.NeedsRebuilding) =>
          setCrash { st with dg := g2 } Crash.unreachableFreshLoad
      | (g2, LoadResult.Valid) =>
          match cmd.cond with
          | Condition.Always =>
              let st2 := schedule { st with dg := g2 } cmd
              { st2 with dg := O.markIntransitive st2.dg cmd.id }
          | Condition.CheckDependencies =>
              { st with dg := g2, deferred := insertJob st.deferred cmd }

/-- Lines 158–162: once the walk is over, if `NeedToRunEverything`, schedule
every deferred command and clear the deferred set. -/
def flushDeferred {γ : Type} (st : InvState γ) : InvState γ :=
  if st.sh.crashed.isSome then st
  else if st.needToRun then
    { scheduleAll st st.deferred with deferred := [] }
  else st

/-- Lines 217–227 of `taskFinished` (exit code 0): insert the finished
command into `FinishedCommands`, re-schedule every command blocked on it and
erase its blocking entry. -/
def finishAndUnblock {γ : Type} (st : InvState γ) (cmd : Job) : InvState γ :=
  let st1 := { st with sh := { st.sh with finished := insertId st.sh.finished cmd.id } }
  let st2 := scheduleAll st1 (blockedOn st1.sh.blocking cmd.id)
  { st2 with sh := { st2.sh with blocking := eraseBlocking st2.sh.blocking cmd.id } }

/-- The body of the dependents loop of `taskFinished` (lines 255–258):
`DeferredCommands.erase(Cmd); scheduleCommandIfNecessaryAndPossible(Cmd);`. -/
def depStep {γ : Type} (s : InvState γ) (d : Job) : InvState γ :=
  schedule { s with deferred := s.deferred.filter (fun x => !(x.id == d.id)) } d

/-- Lines 229–260 of `taskFinished`: unless the fallback is active, reload
the finished command's dependency record (if any).  `isMarked` is queried on
the graph state from *before* the reload (`wasNonPrivate`).  `HadError`
activates the fallback and schedules all deferred commands; `Valid` performs
a transitive mark iff `wasNonPrivate`, and every returned dependent is
removed from the deferred set and scheduled; `NeedsRebuilding` is
`llvm_unreachable`. -/
def reloadAndMark {γ : Type} (O : DepGraphModel γ) (st : InvState γ) (cmd : Job) :
    InvState γ :=
  if st.needToRun then st
  else
    match cmd.depFile with
    | none => st
    | some path =>
      let wasNonPrivate := O.isMarked st.dg cmd.id
      match O.load st.dg cmd.id path with
      | (g2, LoadResult.HadError) =>
          let st1 := scheduleAll { st with dg := g2, needToRun := true } st.deferred
          { st1 with deferred := [] }
      | (g2, LoadResult.NeedsRebuilding) =>
          setCrash { st with dg := g2 } Crash.unreachableReload
      | (g2, LoadResult.Valid) =>
          if wasNonPrivate then
            let md := O.markTransitive g2 cmd.id
            md.2.foldl depStep { st with dg := md.1 }
          else { st with dg := g2 }

/-- The `taskFinished` callback (lines 185–263).  A non-zero return code
stores the first non-zero code in `Result`, emits the generic command-failed
diagnostic unless the creating tool has good diagnostics and the code is 1,
and performs no dependency analysis.  Exit code 0 runs the unblocking and
reload steps. -/
def taskFinished {γ : Type} (O : DepGraphModel γ) (st : InvState γ) (cmd : Job)
    (rc : Int) : InvState γ :=
  if rc ≠ 0 then
    let st1 := { st with result := if st.result = 0 then rc else st.result }
    if cmd.tool.goodDiags ∧ rc = 1 then st1
    else
      { st1 with sh := { st1.sh with
          diags := st1.sh.diags ++ [Diag.commandFailed cmd.tool.name rc] } }
  else
    reloadAndMark O (finishAndUnblock st cmd) cmd

/-- The `taskSignalled` callback (lines 265–291): emit the error message (if
non-empty) and the command-signalled diagnostic, and unconditionally set
`Result` to the sentinel `-2`. -/
def taskSignalled {γ : Type} (st : InvState γ) (cmd : Job) (errMsg : String) :
    InvState γ :=
  let d1 := if errMsg ≠ "" then [Diag.unableToExecute errMsg] else []
  { st with
    sh := { st.sh with
            diags := st.sh.diags ++ d1 ++ [Diag.commandSignalled cmd.tool.name] },
    result := -2 }

/-- Dispatch one completion event to the matching callback (no-op once
crashed). -/
def execStep {γ : Type} (O : DepGraphModel γ) (st : InvState γ) (e : TaskEvent) :
    InvState γ :=
  if st.sh.crashed.isSome then st
  else
    match e with
    | TaskEvent.finished cmd rc => taskFinished O st cmd rc
    | TaskEvent.signalled cmd msg => taskSignalled st cmd msg

/-- `TQ->execute(...)`: process the executor's completion events in order. -/
def executeTrace {γ : Type} (O : DepGraphModel γ) (tr : List TaskEvent)
    (st : InvState γ) : InvState γ :=
  tr.foldl (execStep O) st

/-- The body of the skipped-marking loop (lines 297–306): insert the
deferred command into `ScheduledCommands` and `FinishedCommands`. -/
def skipStep {γ : Type} (s : InvState γ) (c : Job) : InvState γ :=
  { s with sh := { s.sh with
      scheduled := insertId s.sh.scheduled c.id,
      finished := insertId s.sh.finished c.id } }

/-- Lines 296–311: mark every remaining deferred command as skipped (insert
into `ScheduledCommands` and `FinishedCommands`), then, if `Result` is 0,
assert that `BlockingCommands` is empty (a failing assert aborts). -/
def finalize {γ : Type} (st : InvState γ) : InvState γ :=
  if st.sh.crashed.isSome then st
  else
    let st1 := st.deferred.foldl skipStep st
    if st1.result = 0 ∧ ¬ st1.sh.blocking.isEmpty then setCrash st1 Crash.assertBlocking
    else st1

theorem Job.sizeOf_inputs_lt (j : Job) : sizeOf j.inputs < sizeOf j := by
  cases j with
  | mk i ins e a d c t =>
    simp only [Job.inputs]
    simp only [Job.mk.sizeOf_spec]
    omega

mutual

/-- `Compilation::performJobsInList` (lines 84–314): construct a fresh task
queue and dependency graph, walk the job list (recursively performing each
job's inputs first and propagating a non-zero result immediately), flush the
deferred set if the fallback activated during the walk, run the executor on
this invocation's trace, and finalize.  `ctr` numbers the invocations in the
order their `execute` calls are reached; `tro` supplies each invocation's
completion-event list.  Returns the result code, the shared state, and the
next counter value. -/
def performJobsInList {γ : Type} (tro : Nat → List TaskEvent) (O : DepGraphModel γ)
    (JL : List Job) (sh : SharedState) (ctr : Nat) : Int × SharedState × Nat :=
  let st0 : InvState γ := ⟨sh, [], O.emptyGraph, [], false, 0⟩
  match walkList tro O JL st0 ctr with
  | (some r, st, c) => (r, st.sh, c)
  | (none, st, c) =>
      let st1 := flushDeferred st
      let st2 := executeTrace O (tro c) st1
      let st3 := finalize st2
      (st3.result, st3.sh, c + 1)
termination_by (sizeOf JL, 1)
decreasing_by
  exact Prod.Lex.right (sizeOf JL) (by omega)

/-- The walk loop of `performJobsInList` (lines 116–156): for each job,
first perform its inputs in a nested invocation (returning its result at
once if non-zero, which skips this invocation's execute/finalize), then run
the per-job condition logic. -/
def walkList {γ : Type} (tro : Nat → List TaskEvent) (O : DepGraphModel γ)
    (JL : List Job) (st : InvState γ) (ctr : Nat) :
    Option Int × InvState γ × Nat :=
  match JL with
  | [] => (none, st, ctr)
  | cmd :: rest =>
      let inner := performJobsInList tro O cmd.inputs st.sh ctr
      let st2 := { st with sh := inner.2.1 }
      if inner.1 ≠ 0 then (some inner.1, st2, inner.2.2)
      else walkList tro O rest (processOneJob O st2 cmd) inner.2.2
termination_by (sizeOf JL, 0)
decreasing_by
  · apply Prod.Lex.left
    have h := Job.sizeOf_inputs_lt cmd
    simp only [List.cons.sizeOf_spec]
    omega
  · apply Prod.Lex.left
    simp only [List.cons.sizeOf_spec]
    omega

end

/-- The walk loop of `performJobsInList`, abstracted over the
nested-invocation call (`recur`): the companion of `walkList` used by the
fuel-indexed runner `performJobsInListF`. -/
def walkListF {γ : Type} (O : DepGraphModel γ)
    (recur : List Job → SharedState → Nat → Int × SharedState × Nat) :
    List Job → InvState γ → Nat → Option Int × InvState γ × Nat
  | [], st, ctr => (none, st, ctr)
  | cmd :: rest, st, ctr =>
      let inner := recur cmd.inputs st.sh ctr
      let st2 := { st with sh := inner.2.1 }
      if inner.1 ≠ 0 then (some inner.1, st2, inner.2.2)
      else walkListF O recur rest (processOneJob O st2 cmd) inner.2.2

/-- A fuel-indexed companion of `performJobsInList`: structural recursion on
an explicit fuel bound instead of well-founded recursion on the job list, so
that concrete runs reduce definitionally.  With fuel at least `sizeOf JL` it
agrees with `performJobsInList` (`performJobsInListF_eq`). -/
def performJobsInListF {γ : Type} (tro : Nat → List TaskEvent)
    (O : DepGraphModel γ) :
    Nat → List Job → SharedState → Nat → Int × SharedState × Nat
  | 0, _, sh, ctr => (0, sh, ctr)
  | n + 1, JL, sh, ctr =>
      let st0 : InvState γ := ⟨sh, [], O.emptyGraph, [], false, 0⟩
      match walkListF O (performJobsInListF tro O n) JL st0 ctr with
      | (some r, st, c) => (r, st.sh, c)
      | (none, st, c) =>
          let st1 := flushDeferred st
          let st2 := executeTrace O (tro c) st1
          let st3 := finalize st2
          (st3.result, st3.sh, c + 1)

/-- `getOnlyCommandInList` (lines 316–324). -/
def getOnlyCommandInList (l : List Job) : Option Job :=
  match l with
  | [c] => if c.inputs.isEmpty then some c else none
  | _ => none

/-- `Compilation::performSingleCommand` (lines 326–349): a
`CheckDependencies` command returns 0 without running; otherwise the process
image is replaced by the command.  `ExecuteInPlace` is modelled from the
spec (section 4.3: on this path the task's exit code becomes the program's
exit code); `execCode` is that exit code.  Returns the exit status and
whether the command was executed. -/
def performSingleCommand (execCode : Int) (cmd : Job) : Int × Bool :=
  match cmd.cond with
  | Condition.CheckDependencies => (0, false)
  | Condition.Always => (execCode, true)

/-- `OutputLevel`. -/
inductive OutputLevel where
  | Normal
  | Verbose
  | Parseable
deriving DecidableEq, Repr

/-- `Compilation::performJobs` (lines 351–374): if parseable output is not
required and the job list is a single input-free command, take the fast path
(which returns before the temporary-file removal loop); otherwise warn if
parallelism is unsupported but requested, run the general path, and remove
every registered temporary file.  The third component lists the temporary
files removed. -/
def performJobs {γ : Type} (tro : Nat → List TaskEvent) (O : DepGraphModel γ)
    (execCode : Int) (jobs : List Job) (level : OutputLevel) (numParallel : Nat)
    (parallelSupported : Bool) (tempFilePaths : List String) :
    Int × SharedState × List String :=
  match (if level = OutputLevel.Parseable then none else getOnlyCommandInList jobs) with
  | some onlyCmd => ((performSingleCommand execCode onlyCmd).1, initialShared, [])
  | none =>
      let sh0 := if ¬ parallelSupported ∧ numParallel > 1 then
          { initialShared with diags := [Diag.parallelNotSupported] }
        else initialShared
      let r := performJobsInList tro O jobs sh0 0
      (r.1, r.2.1, tempFilePaths)

/-! ## Basic facts about the set/map helpers -/

theorem insertId_mem (l : List Nat) (i j : Nat) :
    j ∈ insertId l i ↔ j ∈ l ∨ j = i := by
  unfold insertId
  split
  · rename_i h
    constructor
    · exact Or.inl
    · rintro (h1 | rfl)
      · exact h1
      · exact List.elem_iff.mp h
  · simp

theorem insertId_sub (l : List Nat) (i : Nat) : ∀ j ∈ l, j ∈ insertId l i := by
  intro j hj
  exact (insertId_mem l i j).mpr (Or.inl hj)

theorem pushBlocking_keys (m : List (Nat × List Job)) (k : Nat) (c : Job) :
    ∀ k' ∈ (pushBlocking m k c).map Prod.fst,
      k' ∈ m.map Prod.fst ∨ k' = k := by
  intro k' hk'
  unfold pushBlocking at hk'
  split at hk'
  · left
    rcases List.mem_map.mp hk' with ⟨e, he, rfl⟩
    rcases List.mem_map.mp he with ⟨e0, he0, rfl⟩
    apply List.mem_map.mpr
    refine ⟨e0, he0, ?_⟩
    split <;> rfl
  · rcases List.mem_map.mp hk' with ⟨e, he, rfl⟩
    rcases List.mem_append.mp he with h1 | h1
    · exact Or.inl (List.mem_map.mpr ⟨e, h1, rfl⟩)
    · right
      simp at h1
      simp [h1]

/-! ## The run-wide monotonicity relation on shared states -/

/-- Well-formedness of the submission log: no id submitted twice, and every
submitted id is in `scheduled`. -/
def Good (sh : SharedState) : Prop :=
  sh.allSubmitted.Nodup ∧ ∀ i ∈ sh.allSubmitted, i ∈ sh.scheduled

/-- `a` evolves into `b`: the facts every operation of a run preserves —
`scheduled`, `finished` and `attempts` only grow, a crash is permanent, and
well-formedness of the submission log is maintained. -/
def Evolves (a b : SharedState) : Prop :=
  (∀ i ∈ a.scheduled, i ∈ b.scheduled) ∧
  (∀ i ∈ a.finished, i ∈ b.finished) ∧
  (∀ i ∈ a.attempts, i ∈ b.attempts) ∧
  (∀ c, a.crashed = some c → b.crashed = some c) ∧
  (Good a → Good b)

theorem Evolves.rfl (a : SharedState) : Evolves a a :=
  ⟨fun _ h => h, fun _ h => h, fun _ h => h, fun _ h => h, id⟩

theorem Evolves.trans {a b c : SharedState} (h1 : Evolves a b) (h2 : Evolves b c) :
    Evolves a c :=
  ⟨fun i h => h2.1 i (h1.1 i h),
   fun i h => h2.2.1 i (h1.2.1 i h),
   fun i h => h2.2.2.1 i (h1.2.2.1 i h),
   fun cr h => h2.2.2.2.1 cr (h1.2.2.2.1 cr h),
   fun g => h2.2.2.2.2 (h1.2.2.2.2 g)⟩

/-! ## Frame and monotonicity lemmas for `schedule` -/

theorem schedule_frame {γ : Type} (st : InvState γ) (cmd : Job) :
    (schedule st cmd).sh.finished = st.sh.finished ∧
    (schedule st cmd).sh.crashed = st.sh.crashed ∧
    (schedule st cmd).sh.diags = st.sh.diags ∧
    (schedule st cmd).dg = st.dg ∧
    (schedule st cmd).deferred = st.deferred ∧
    (schedule st cmd).needToRun = st.needToRun ∧
    (schedule st cmd).result = st.result := by
  unfold schedule
  dsimp only
  split
  · simp
  · split <;> simp

theorem schedule_attempt_self {γ : Type} (st : InvState γ) (cmd : Job) :
    cmd.id ∈ (schedule st cmd).sh.attempts := by
  unfold schedule
  dsimp only
  split
  · simp
  · split <;> simp

theorem schedule_keys {γ : Type} (st : InvState γ) (cmd : Job) :
    ∀ k ∈ (schedule st cmd).sh.blocking.map Prod.fst,
      k ∈ st.sh.blocking.map Prod.fst ∨ k ∉ st.sh.finished := by
  intro k hk
  unfold schedule at hk
  dsimp only at hk
  split at hk
  · exact Or.inl hk
  · split at hk
    · rename_i b hb
      rcases pushBlocking_keys _ _ _ k hk with h | rfl
      · exact Or.inl h
      · right
        have hfind := List.find?_some hb
        simp only [Bool.not_eq_true'] at hfind
        intro hmem
        have h2 : st.sh.finished.contains b.id = true := by simpa using hmem
        rw [h2] at hfind
        cases hfind
    · exact Or.inl hk

theorem schedule_evolves {γ : Type} (st : InvState γ) (cmd : Job) :
    Evolves st.sh (schedule st cmd).sh := by
  unfold schedule
  dsimp only
  split
  · refine ⟨by simp, by simp, ?_, by simp, ?_⟩
    · intro i h
      simp [List.mem_append]
      exact Or.inl h
    · rintro ⟨h1, h2⟩
      exact ⟨h1, h2⟩
  · rename_i hcon
    split
    · refine ⟨by simp, by simp, ?_, by simp, ?_⟩
      · intro i h
        simp [List.mem_append]
        exact Or.inl h
      · rintro ⟨h1, h2⟩
        exact ⟨h1, h2⟩
    · refine ⟨?_, by simp, ?_, by simp, ?_⟩
      · intro i h
        simp [List.mem_append]
        exact Or.inl h
      · intro i h
        simp [List.mem_append]
        exact Or.inl h
      · rintro ⟨h1, h2⟩
        constructor
        · simp only [List.nodup_append]
          refine ⟨h1, List.nodup_singleton _, ?_⟩
          intro i hi hj
          simp at hj
          subst hj
          have hmem : cmd.id ∈ st.sh.scheduled := h2 _ hi
          exact hcon (by simpa using hmem)
        · intro i h
          simp only [List.mem_append] at h ⊢
          rcases h with h | h
          · exact Or.inl (h2 _ h)
          · exact Or.inr h

/-! ## Lifting to the scheduling folds -/

theorem scheduleAll_nil {γ : Type} (st : InvState γ) : scheduleAll st [] = st := rfl

theorem scheduleAll_cons {γ : Type} (st : InvState γ) (c : Job) (l : List Job) :
    scheduleAll st (c :: l) = scheduleAll (schedule st c) l := rfl

theorem scheduleAll_frame {γ : Type} (l : List Job) :
    ∀ st : InvState γ,
      (scheduleAll st l).sh.finished = st.sh.finished ∧
      (scheduleAll st l).sh.crashed = st.sh.crashed ∧
      (scheduleAll st l).sh.diags = st.sh.diags ∧
      (scheduleAll st l).dg = st.dg ∧
      (scheduleAll st l).deferred = st.deferred ∧
      (scheduleAll st l).needToRun = st.needToRun ∧
      (scheduleAll st l).result = st.result := by
  induction l with
  | nil => intro st; exact ⟨rfl, rfl, rfl, rfl, rfl, rfl, rfl⟩
  | cons c rest ih =>
    intro st
    rw [scheduleAll_cons]
    have h1 := schedule_frame st c
    have h2 := ih (schedule st c)
    exact ⟨h2.1.trans h1.1, h2.2.1.trans h1.2.1, h2.2.2.1.trans h1.2.2.1,
           h2.2.2.2.1.trans h1.2.2.2.1, h2.2.2.2.2.1.trans h1.2.2.2.2.1,
           h2.2.2.2.2.2.1.trans h1.2.2.2.2.2.1, h2.2.2.2.2.2.2.trans h1.2.2.2.2.2.2⟩

theorem scheduleAll_evolves {γ : Type} (l : List Job) :
    ∀ st : InvState γ, Evolves st.sh (scheduleAll st l).sh := by
  induction l with
  | nil => intro st; exact Evolves.rfl _
  | cons c rest ih =>
    intro st
    rw [scheduleAll_cons]
    exact (schedule_evolves st c).trans (ih (schedule st c))

theorem scheduleAll_attempt_mem {γ : Type} (l : List Job) :
    ∀ st : InvState γ, ∀ c ∈ l, c.id ∈ (scheduleAll st l).sh.attempts := by
  induction l with
  | nil => intro st c hc; cases hc
  | cons c0 rest ih =>
    intro st c hc
    rw [scheduleAll_cons]
    rcases hc with _ | hc
    · exact (scheduleAll_evolves rest (schedule st c0)).2.2.1 _ (schedule_attempt_self st c0)
    · exact ih (schedule st c0) c (by assumption)

theorem scheduleAll_keys {γ : Type} (l : List Job) :
    ∀ st : InvState γ, ∀ k ∈ (scheduleAll st l).sh.blocking.map Prod.fst,
      k ∈ st.sh.blocking.map Prod.fst ∨ k ∉ st.sh.finished := by
  induction l with
  | nil => intro st k hk; exact Or.inl hk
  | cons c rest ih =>
    intro st k hk
    rw [scheduleAll_cons] at hk
    rcases ih (schedule st c) k hk with h | h
    · rcases schedule_keys st c k h with h2 | h2
      · exact Or.inl h2
      · exact Or.inr h2
    · rw [(schedule_frame st c).1] at h
      exact Or.inr h

theorem depStep_sh {γ : Type} (s : InvState γ) (d : Job) :
    depStep s d = schedule { s with deferred := s.deferred.filter (fun x => !(x.id == d.id)) } d := rfl

theorem depStep_frame {γ : Type} (s : InvState γ) (d : Job) :
    (depStep s d).sh.finished = s.sh.finished ∧
    (depStep s d).sh.crashed = s.sh.crashed ∧
    (depStep s d).sh.diags = s.sh.diags ∧
    (depStep s d).dg = s.dg ∧
    (depStep s d).needToRun = s.needToRun ∧
    (depStep s d).result = s.result := by
  have h := schedule_frame { s with deferred := s.deferred.filter (fun x => !(x.id == d.id)) } d
  exact ⟨h.1, h.2.1, h.2.2.1, h.2.2.2.1, h.2.2.2.2.2.1, h.2.2.2.2.2.2⟩

theorem depStep_evolves {γ : Type} (s : InvState γ) (d : Job) :
    Evolves s.sh (depStep s d).sh :=
  schedule_evolves { s with deferred := s.deferred.filter (fun x => !(x.id == d.id)) } d

theorem depFold_evolves {γ : Type} (l : List Job) :
    ∀ st : InvState γ, Evolves st.sh (l.foldl depStep st).sh := by
  induction l with
  | nil => intro st; exact Evolves.rfl _
  | cons c rest ih =>
    intro st
    rw [List.foldl_cons]
    exact (depStep_evolves st c).trans (ih (depStep st c))

theorem depFold_frame {γ : Type} (l : List Job) :
    ∀ st : InvState γ,
      (l.foldl depStep st).sh.finished = st.sh.finished ∧
      (l.foldl depStep st).sh.crashed = st.sh.crashed ∧
      (l.foldl depStep st).needToRun = st.needToRun ∧
      (l.foldl depStep st).result = st.result := by
  induction l with
  | nil => intro st; exact ⟨rfl, rfl, rfl, rfl⟩
  | cons c rest ih =>
    intro st
    rw [List.foldl_cons]
    have h1 := depStep_frame st c
    have h2 := ih (depStep st c)
    exact ⟨h2.1.trans h1.1, h2.2.1.trans h1.2.1, h2.2.2.1.trans h1.2.2.2.2.1,
           h2.2.2.2.trans h1.2.2.2.2.2⟩

theorem skipStep_frame {γ : Type} (s : InvState γ) (c : Job) :
    (skipStep s c).sh.blocking = s.sh.blocking ∧
    (skipStep s c).sh.crashed = s.sh.crashed ∧
    (skipStep s c).sh.diags = s.sh.diags ∧
    (skipStep s c).sh.allSubmitted = s.sh.allSubmitted ∧
    (skipStep s c).sh.attempts = s.sh.attempts ∧
    (skipStep s c).tq = s.tq ∧
    (skipStep s c).result = s.result := by
  unfold skipStep
  exact ⟨rfl, rfl, rfl, rfl, rfl, rfl, rfl⟩

theorem skipStep_evolves {γ : Type} (s : InvState γ) (c : Job) :
    Evolves s.sh (skipStep s c).sh := by
  unfold skipStep
  refine ⟨?_, ?_, by simp, by simp, ?_⟩
  · intro i h
    exact insertId_sub _ _ _ h
  · intro i h
    exact insertId_sub _ _ _ h
  · rintro ⟨h1, h2⟩
    exact ⟨h1, fun i h => insertId_sub _ _ _ (h2 i h)⟩

theorem skipFold_evolves {γ : Type} (l : List Job) :
    ∀ st : InvState γ, Evolves st.sh (l.foldl skipStep st).sh := by
  induction l with
  | nil => intro st; exact Evolves.rfl _
  | cons c rest ih =>
    intro st
    rw [List.foldl_cons]
    exact (skipStep_evolves st c).trans (ih (skipStep st c))

theorem skipFold_frame {γ : Type} (l : List Job) :
    ∀ st : InvState γ,
      (l.foldl skipStep st).sh.blocking = st.sh.blocking ∧
      (l.foldl skipStep st).sh.crashed = st.sh.crashed ∧
      (l.foldl skipStep st).tq = st.tq ∧
      (l.foldl skipStep st).result = st.result := by
  induction l with
  | nil => intro st; exact ⟨rfl, rfl, rfl, rfl⟩
  | cons c rest ih =>
    intro st
    rw [List.foldl_cons]
    have h1 := skipStep_frame st c
    have h2 := ih (skipStep st c)
    exact ⟨h2.1.trans h1.1, h2.2.1.trans h1.2.1, h2.2.2.1.trans h1.2.2.2.2.2.1,
           h2.2.2.2.trans h1.2.2.2.2.2.2⟩


/-! ## Step lemmas for the composite operations -/

theorem setCrash_evolves {γ : Type} (st : InvState γ) (c : Crash)
    (hc : st.sh.crashed = none) : Evolves st.sh (setCrash st c).sh := by
  unfold setCrash
  refine ⟨fun _ h => h, fun _ h => h, fun _ h => h, ?_, fun g => g⟩
  intro c' hc'
  rw [hc] at hc'
  cases hc'

theorem processOneJob_evolves {γ : Type} (O : DepGraphModel γ) (st : InvState γ)
    (cmd : Job) : Evolves st.sh (processOneJob O st cmd).sh := by
  unfold processOneJob
  split
  · exact Evolves.rfl _
  · rename_i hnc
    have hcn : st.sh.crashed = none := by
      cases h : st.sh.crashed
      · rfl
      · rw [h] at hnc; simp at hnc
    split
    · exact schedule_evolves st cmd
    · split
      · exact schedule_evolves st cmd
      · rename_i path hpath
        split
        · rename_i g2 heq
          exact schedule_evolves { st with dg := g2, needToRun := true } cmd
        · rename_i g2 heq
          exact setCrash_evolves { st with dg := g2 } Crash.unreachableFreshLoad hcn
        · rename_i g2 heq
          split
          · exact schedule_evolves { st with dg := g2 } cmd
          · exact Evolves.rfl _

theorem flushDeferred_evolves {γ : Type} (st : InvState γ) :
    Evolves st.sh (flushDeferred st).sh := by
  unfold flushDeferred
  split
  · exact Evolves.rfl _
  · split
    · exact scheduleAll_evolves st.deferred st
    · exact Evolves.rfl _

theorem finishAndUnblock_frame {γ : Type} (st : InvState γ) (cmd : Job) :
    (finishAndUnblock st cmd).sh.finished = insertId st.sh.finished cmd.id ∧
    (finishAndUnblock st cmd).sh.crashed = st.sh.crashed ∧
    (finishAndUnblock st cmd).sh.diags = st.sh.diags ∧
    (finishAndUnblock st cmd).dg = st.dg ∧
    (finishAndUnblock st cmd).deferred = st.deferred ∧
    (finishAndUnblock st cmd).needToRun = st.needToRun ∧
    (finishAndUnblock st cmd).result = st.result := by
  unfold finishAndUnblock
  dsimp only
  have h := scheduleAll_frame (γ := γ)
    (blockedOn st.sh.blocking cmd.id)
    { st with sh := { st.sh with finished := insertId st.sh.finished cmd.id } }
  exact ⟨h.1, h.2.1, h.2.2.1, h.2.2.2.1, h.2.2.2.2.1, h.2.2.2.2.2.1, h.2.2.2.2.2.2⟩

theorem finishAndUnblock_evolves {γ : Type} (st : InvState γ) (cmd : Job) :
    Evolves st.sh (finishAndUnblock st cmd).sh := by
  unfold finishAndUnblock
  dsimp only
  apply Evolves.trans
  · show Evolves st.sh
      { st with sh := { st.sh with finished := insertId st.sh.finished cmd.id } }.sh
    refine ⟨fun _ h => h, ?_, fun _ h => h, fun _ h => h, fun g => g⟩
    intro i h
    exact insertId_sub _ _ _ h
  · apply Evolves.trans
    · exact scheduleAll_evolves (blockedOn st.sh.blocking cmd.id)
        { st with sh := { st.sh with finished := insertId st.sh.finished cmd.id } }
    · exact ⟨fun _ h => h, fun _ h => h, fun _ h => h, fun _ h => h, fun g => g⟩

theorem reloadAndMark_frame {γ : Type} (O : DepGraphModel γ) (st : InvState γ)
    (cmd : Job) :
    (reloadAndMark O st cmd).sh.finished = st.sh.finished ∧
    (reloadAndMark O st cmd).result = st.result := by
  unfold reloadAndMark
  dsimp only
  split
  · exact ⟨rfl, rfl⟩
  · split
    · exact ⟨rfl, rfl⟩
    · split
      · rename_i g2 heq
        have h := scheduleAll_frame (γ := γ) st.deferred
          { st with dg := g2, needToRun := true }
        exact ⟨h.1, h.2.2.2.2.2.2⟩
      · exact ⟨rfl, rfl⟩
      · rename_i g2 heq
        split
        · have h := depFold_frame (γ := γ) (O.markTransitive g2 cmd.id).2
            { st with dg := (O.markTransitive g2 cmd.id).1 }
          exact ⟨h.1, h.2.2.2⟩
        · exact ⟨rfl, rfl⟩

theorem reloadAndMark_evolves {γ : Type} (O : DepGraphModel γ) (st : InvState γ)
    (cmd : Job) (hc : st.sh.crashed = none) :
    Evolves st.sh (reloadAndMark O st cmd).sh := by
  unfold reloadAndMark
  dsimp only
  split
  · exact Evolves.rfl _
  · split
    · exact Evolves.rfl _
    · split
      · rename_i g2 heq
        apply Evolves.trans
        · exact scheduleAll_evolves st.deferred { st with dg := g2, needToRun := true }
        · exact ⟨fun _ h => h, fun _ h => h, fun _ h => h, fun _ h => h, fun g => g⟩
      · rename_i g2 heq
        exact setCrash_evolves { st with dg := g2 } Crash.unreachableReload hc
      · rename_i g2 heq
        split
        · exact depFold_evolves (O.markTransitive g2 cmd.id).2
            { st with dg := (O.markTransitive g2 cmd.id).1 }
        · exact Evolves.rfl _

theorem taskFinished_zero {γ : Type} (O : DepGraphModel γ) (st : InvState γ)
    (cmd : Job) : taskFinished O st cmd 0 = reloadAndMark O (finishAndUnblock st cmd) cmd := by
  unfold taskFinished
  simp

theorem taskFinished_fail {γ : Type} (O : DepGraphModel γ) (st : InvState γ)
    (cmd : Job) (rc : Int) (h : rc ≠ 0) :
    (taskFinished O st cmd rc).tq = st.tq ∧
    (taskFinished O st cmd rc).sh.allSubmitted = st.sh.allSubmitted ∧
    (taskFinished O st cmd rc).sh.scheduled = st.sh.scheduled ∧
    (taskFinished O st cmd rc).sh.finished = st.sh.finished ∧
    (taskFinished O st cmd rc).sh.blocking = st.sh.blocking ∧
    (taskFinished O st cmd rc).sh.attempts = st.sh.attempts ∧
    (taskFinished O st cmd rc).sh.crashed = st.sh.crashed ∧
    (taskFinished O st cmd rc).deferred = st.deferred ∧
    (taskFinished O st cmd rc).dg = st.dg ∧
    (taskFinished O st cmd rc).needToRun = st.needToRun ∧
    (taskFinished O st cmd rc).result = (if st.result = 0 then rc else st.result) ∧
    (taskFinished O st cmd rc).sh.diags
      = st.sh.diags ++ (if cmd.tool.goodDiags = true ∧ rc = 1 then []
                        else [Diag.commandFailed cmd.tool.name rc]) := by
  by_cases hg : cmd.tool.goodDiags = true ∧ rc = 1
  · by_cases hr : st.result = 0 <;> simp [taskFinished, h, hg, hr]
  · by_cases hr : st.result = 0 <;> simp [taskFinished, h, hg, hr]

theorem taskSignalled_frame {γ : Type} (st : InvState γ) (cmd : Job) (msg : String) :
    (taskSignalled st cmd msg).tq = st.tq ∧
    (taskSignalled st cmd msg).sh.allSubmitted = st.sh.allSubmitted ∧
    (taskSignalled st cmd msg).sh.scheduled = st.sh.scheduled ∧
    (taskSignalled st cmd msg).sh.finished = st.sh.finished ∧
    (taskSignalled st cmd msg).sh.blocking = st.sh.blocking ∧
    (taskSignalled st cmd msg).sh.attempts = st.sh.attempts ∧
    (taskSignalled st cmd msg).sh.crashed = st.sh.crashed ∧
    (taskSignalled st cmd msg).deferred = st.deferred ∧
    (taskSignalled st cmd msg).result = -2 := by
  unfold taskSignalled
  exact ⟨rfl, rfl, rfl, rfl, rfl, rfl, rfl, rfl, rfl⟩

theorem taskFinished_evolves {γ : Type} (O : DepGraphModel γ) (st : InvState γ)
    (cmd : Job) (rc : Int) (hc : st.sh.crashed = none) :
    Evolves st.sh (taskFinished O st cmd rc).sh := by
  by_cases h : rc = 0
  · subst h
    rw [taskFinished_zero]
    refine (finishAndUnblock_evolves st cmd).trans ?_
    apply reloadAndMark_evolves
    rw [(finishAndUnblock_frame st cmd).2.1, hc]
  · have hf := taskFinished_fail O st cmd rc h
    refine ⟨?_, ?_, ?_, ?_, ?_⟩
    · rw [hf.2.2.1]; exact fun _ h => h
    · rw [hf.2.2.2.1]; exact fun _ h => h
    · rw [hf.2.2.2.2.2.1]; exact fun _ h => h
    · rw [hf.2.2.2.2.2.2.1]; exact fun _ h => h
    · rintro ⟨g1, g2⟩
      refine ⟨?_, ?_⟩
      · rw [hf.2.1]; exact g1
      · intro i hi
        rw [hf.2.1] at hi
        rw [hf.2.2.1]
        exact g2 i hi

theorem taskSignalled_evolves {γ : Type} (st : InvState γ) (cmd : Job)
    (msg : String) : Evolves st.sh (taskSignalled st cmd msg).sh := by
  have hf := taskSignalled_frame st cmd msg
  refine ⟨?_, ?_, ?_, ?_, ?_⟩
  · rw [hf.2.2.1]; exact fun _ h => h
  · rw [hf.2.2.2.1]; exact fun _ h => h
  · rw [hf.2.2.2.2.2.1]; exact fun _ h => h
  · rw [hf.2.2.2.2.2.2.1]; exact fun _ h => h
  · rintro ⟨g1, g2⟩
    refine ⟨?_, ?_⟩
    · rw [hf.2.1]; exact g1
    · intro i hi
      rw [hf.2.1] at hi
      rw [hf.2.2.1]
      exact g2 i hi

theorem execStep_evolves {γ : Type} (O : DepGraphModel γ) (st : InvState γ)
    (e : TaskEvent) : Evolves st.sh (execStep O st e).sh := by
  unfold execStep
  split
  · exact Evolves.rfl _
  · rename_i hnc
    have hcn : st.sh.crashed = none := by
      cases h : st.sh.crashed
      · rfl
      · rw [h] at hnc; simp at hnc
    split
    · exact taskFinished_evolves _ _ _ _ hcn
    · exact taskSignalled_evolves _ _ _

theorem executeTrace_cons {γ : Type} (O : DepGraphModel γ) (e : TaskEvent)
    (rest : List TaskEvent) (st : InvState γ) :
    executeTrace O (e :: rest) st = executeTrace O rest (execStep O st e) := rfl

theorem executeTrace_evolves {γ : Type} (O : DepGraphModel γ) (tr : List TaskEvent) :
    ∀ st : InvState γ, Evolves st.sh (executeTrace O tr st).sh := by
  induction tr with
  | nil => intro st; exact Evolves.rfl _
  | cons e rest ih =>
    intro st
    rw [executeTrace_cons]
    exact (execStep_evolves O st e).trans (ih (execStep O st e))

theorem finalize_evolves {γ : Type} (st : InvState γ) :
    Evolves st.sh (finalize st).sh := by
  unfold finalize
  split
  · exact Evolves.rfl _
  · rename_i hnc
    have hcn : st.sh.crashed = none := by
      cases h : st.sh.crashed
      · rfl
      · rw [h] at hnc; simp at hnc
    dsimp only
    split
    · refine (skipFold_evolves st.deferred st).trans ?_
      apply setCrash_evolves
      rw [(skipFold_frame st.deferred st).2.1, hcn]
    · exact skipFold_evolves st.deferred st

/-! ## Run-level monotonicity: the master induction over the graph walk -/

theorem performJobsInList_evolves_of_walk {γ : Type} (tro : Nat → List TaskEvent)
    (O : DepGraphModel γ) (JL : List Job)
    (hw : ∀ (st : InvState γ) (ctr : Nat), Evolves st.sh (walkList tro O JL st ctr).2.1.sh) :
    ∀ (sh : SharedState) (ctr : Nat), Evolves sh (performJobsInList tro O JL sh ctr).2.1 := by
  intro sh ctr
  have h0 := hw ⟨sh, [], O.emptyGraph, [], false, 0⟩ ctr
  rcases hwc : walkList tro O JL ⟨sh, [], O.emptyGraph, [], false, 0⟩ ctr with ⟨res, st, c⟩
  rw [hwc] at h0
  simp only [performJobsInList, hwc]
  cases res with
  | some r => exact h0
  | none =>
      refine h0.trans ?_
      refine (flushDeferred_evolves st).trans ?_
      refine (executeTrace_evolves O (tro c) (flushDeferred st)).trans ?_
      exact finalize_evolves _

theorem walkList_evolves_aux {γ : Type} (tro : Nat → List TaskEvent)
    (O : DepGraphModel γ) :
    ∀ (n : Nat) (JL : List Job), sizeOf JL ≤ n →
      ∀ (st : InvState γ) (ctr : Nat), Evolves st.sh (walkList tro O JL st ctr).2.1.sh := by
  intro n
  induction n using Nat.strong_induction_on with
  | _ n ih =>
    intro JL hJL st ctr
    cases JL with
    | nil =>
        simp only [walkList]
        exact Evolves.rfl _
    | cons cmd rest =>
        have hszc : sizeOf (cmd :: rest) = 1 + sizeOf cmd + sizeOf rest :=
          List.cons.sizeOf_spec cmd rest
        have hin := Job.sizeOf_inputs_lt cmd
        have hsz1 : sizeOf cmd.inputs < n := by omega
        have hsz2 : sizeOf rest < n := by omega
        have hperf : ∀ (sh : SharedState) (c : Nat),
            Evolves sh (performJobsInList tro O cmd.inputs sh c).2.1 :=
          performJobsInList_evolves_of_walk tro O cmd.inputs
            (fun st' c' => ih (sizeOf cmd.inputs) hsz1 cmd.inputs (le_refl _) st' c')
        have key := hperf st.sh ctr
        rcases hinner : performJobsInList tro O cmd.inputs st.sh ctr with ⟨r, sh2, c2⟩
        rw [hinner] at key
        simp only [walkList, hinner]
        by_cases hr : r = 0
        · rw [if_neg (not_not_intro hr)]
          refine Evolves.trans key ?_
          refine Evolves.trans (processOneJob_evolves O { st with sh := sh2 } cmd) ?_
          exact ih (sizeOf rest) hsz2 rest (le_refl _) _ _
        · rw [if_pos hr]
          exact key

theorem walkList_evolves {γ : Type} (tro : Nat → List TaskEvent) (O : DepGraphModel γ)
    (JL : List Job) (st : InvState γ) (ctr : Nat) :
    Evolves st.sh (walkList tro O JL st ctr).2.1.sh :=
  walkList_evolves_aux tro O (sizeOf JL) JL (le_refl _) st ctr

theorem performJobsInList_evolves {γ : Type} (tro : Nat → List TaskEvent)
    (O : DepGraphModel γ) (JL : List Job) (sh : SharedState) (ctr : Nat) :
    Evolves sh (performJobsInList tro O JL sh ctr).2.1 :=
  performJobsInList_evolves_of_walk tro O JL (walkList_evolves tro O JL) sh ctr

/-! ## Result bookkeeping along a trace -/

/-- Whether a trace contains an abnormal-termination event. -/
def hasSignal (tr : List TaskEvent) : Bool :=
  tr.any (fun e => match e with
    | TaskEvent.signalled _ _ => true
    | TaskEvent.finished _ _ => false)

/-- The first non-zero exit code carried by a trace (0 if there is none). -/
def firstNonZeroRC : List TaskEvent → Int
  | [] => 0
  | TaskEvent.finished _ rc :: rest => if rc ≠ 0 then rc else firstNonZeroRC rest
  | TaskEvent.signalled _ _ :: rest => firstNonZeroRC rest

theorem taskFinished_result_zero_rc {γ : Type} (O : DepGraphModel γ)
    (st : InvState γ) (cmd : Job) : (taskFinished O st cmd 0).result = st.result := by
  rw [taskFinished_zero]
  rw [(reloadAndMark_frame O (finishAndUnblock st cmd) cmd).2]
  exact (finishAndUnblock_frame st cmd).2.2.2.2.2.2

theorem execStep_result_of_nonzero {γ : Type} (O : DepGraphModel γ)
    (st : InvState γ) (e : TaskEvent) (h : st.result ≠ 0) :
    (execStep O st e).result = st.result ∨ (execStep O st e).result = -2 := by
  unfold execStep
  split
  · exact Or.inl rfl
  · split
    · rename_i cmd rc
      by_cases hrc : rc = 0
      · subst hrc
        exact Or.inl (taskFinished_result_zero_rc O st cmd)
      · left
        rw [(taskFinished_fail O st cmd rc hrc).2.2.2.2.2.2.2.2.2.2.1]
        exact if_neg h
    · rename_i cmd msg
      exact Or.inr (taskSignalled_frame st cmd msg).2.2.2.2.2.2.2.2

theorem result_neg2_stable {γ : Type} (O : DepGraphModel γ) (tr : List TaskEvent) :
    ∀ st : InvState γ, st.result = -2 → (executeTrace O tr st).result = -2 := by
  induction tr with
  | nil => intro st h; exact h
  | cons e rest ih =>
    intro st h
    rw [executeTrace_cons]
    apply ih
    rcases execStep_result_of_nonzero O st e (by rw [h]; decide) with h2 | h2
    · rw [h2, h]
    · exact h2

theorem result_nonzero_stable {γ : Type} (O : DepGraphModel γ) (tr : List TaskEvent) :
    ∀ st : InvState γ, st.result ≠ 0 → (executeTrace O tr st).result ≠ 0 := by
  induction tr with
  | nil => intro st h; exact h
  | cons e rest ih =>
    intro st h
    rw [executeTrace_cons]
    apply ih
    rcases execStep_result_of_nonzero O st e h with h2 | h2
    · rw [h2]; exact h
    · rw [h2]; decide

theorem result_stable_nosignal {γ : Type} (O : DepGraphModel γ) (tr : List TaskEvent) :
    ∀ st : InvState γ, hasSignal tr = false → st.result ≠ 0 →
      (executeTrace O tr st).result = st.result := by
  induction tr with
  | nil => intro st _ _; rfl
  | cons e rest ih =>
    intro st hs h
    have hs2 : hasSignal rest = false := by
      unfold hasSignal at hs ⊢
      simp only [List.any_cons, Bool.or_eq_false_iff] at hs
      exact hs.2
    rw [executeTrace_cons]
    have hstep : (execStep O st e).result = st.result := by
      unfold execStep
      split
      · rfl
      · split
        · rename_i cmd rc
          by_cases hrc : rc = 0
          · subst hrc
            exact taskFinished_result_zero_rc O st cmd
          · rw [(taskFinished_fail O st cmd rc hrc).2.2.2.2.2.2.2.2.2.2.1]
            exact if_neg h
        · rename_i cmd msg
          unfold hasSignal at hs
          simp at hs
    rw [ih (execStep O st e) hs2 (by rw [hstep]; exact h), hstep]

theorem execStep_crashed_none {γ : Type} (O : DepGraphModel γ) (st : InvState γ)
    (e : TaskEvent) (h : (execStep O st e).sh.crashed = none) :
    st.sh.crashed = none := by
  cases hc : st.sh.crashed with
  | none => rfl
  | some c =>
      have := (execStep_evolves O st e).2.2.2.1 c hc
      rw [this] at h
      cases h

theorem executeTrace_crashed_none {γ : Type} (O : DepGraphModel γ)
    (tr : List TaskEvent) : ∀ st : InvState γ,
    (executeTrace O tr st).sh.crashed = none → st.sh.crashed = none := by
  induction tr with
  | nil => intro st h; exact h
  | cons e rest ih =>
    intro st h
    rw [executeTrace_cons] at h
    exact execStep_crashed_none O st e (ih (execStep O st e) h)

theorem result_firstNonZero_nosignal {γ : Type} (O : DepGraphModel γ)
    (tr : List TaskEvent) : ∀ st : InvState γ, hasSignal tr = false →
      st.result = 0 → (executeTrace O tr st).sh.crashed = none →
      (executeTrace O tr st).result = firstNonZeroRC tr := by
  induction tr with
  | nil => intro st _ h _; exact h
  | cons e rest ih =>
    intro st hs h0 hcf
    have hcn : st.sh.crashed = none := executeTrace_crashed_none O (e :: rest) st hcf
    have hguard : st.sh.crashed.isSome = false := by rw [hcn]; rfl
    cases e with
    | signalled cmd msg =>
        unfold hasSignal at hs
        simp at hs
    | finished cmd rc =>
        have hs2 : hasSignal rest = false := by
          unfold hasSignal at hs ⊢
          simp only [List.any_cons, Bool.or_eq_false_iff] at hs
          exact hs.2
        rw [executeTrace_cons]
        have hst : execStep O st (TaskEvent.finished cmd rc) = taskFinished O st cmd rc := by
          unfold execStep
          rw [if_neg (by rw [hguard]; decide)]
        by_cases hrc : rc = 0
        · subst hrc
          have hres : (taskFinished O st cmd 0).result = 0 := by
            rw [taskFinished_result_zero_rc O st cmd]; exact h0
          have : firstNonZeroRC (TaskEvent.finished cmd 0 :: rest) = firstNonZeroRC rest := by
            simp [firstNonZeroRC]
          rw [this, hst]
          apply ih (taskFinished O st cmd 0) hs2 hres
          rw [executeTrace_cons, hst] at hcf
          exact hcf
        · have hres : (taskFinished O st cmd rc).result = rc := by
            rw [(taskFinished_fail O st cmd rc hrc).2.2.2.2.2.2.2.2.2.2.1]
            exact if_pos h0
          have hfz : firstNonZeroRC (TaskEvent.finished cmd rc :: rest) = rc := by
            unfold firstNonZeroRC
            rw [if_pos hrc]
          rw [hfz, hst]
          rw [result_stable_nosignal O rest (taskFinished O st cmd rc) hs2 (by rw [hres]; exact hrc)]
          exact hres

theorem result_neg2_of_signal {γ : Type} (O : DepGraphModel γ)
    (tr : List TaskEvent) : ∀ st : InvState γ, hasSignal tr = true →
      (executeTrace O tr st).sh.crashed = none →
      (executeTrace O tr st).result = -2 := by
  induction tr with
  | nil => intro st hs _; unfold hasSignal at hs; simp at hs
  | cons e rest ih =>
    intro st hs hcf
    have hcn : st.sh.crashed = none := executeTrace_crashed_none O (e :: rest) st hcf
    cases e with
    | signalled cmd msg =>
        rw [executeTrace_cons]
        have hst : execStep O st (TaskEvent.signalled cmd msg) = taskSignalled st cmd msg := by
          unfold execStep
          rw [if_neg (by rw [hcn]; decide)]
        rw [hst]
        exact result_neg2_stable O rest (taskSignalled st cmd msg)
          (taskSignalled_frame st cmd msg).2.2.2.2.2.2.2.2
    | finished cmd rc =>
        have hs2 : hasSignal rest = true := by
          unfold hasSignal at hs ⊢
          simpa using hs
        rw [executeTrace_cons]
        apply ih (execStep O st (TaskEvent.finished cmd rc)) hs2
        rw [executeTrace_cons] at hcf
        exact hcf

/-! ## The blocking-key invariant: every blocker is unfinished -/

/-- Every key of the blocking map is a job id not yet in `FinishedCommands`. -/
def KeysOK (sh : SharedState) : Prop :=
  ∀ k ∈ sh.blocking.map Prod.fst, k ∉ sh.finished

theorem depFold_keys {γ : Type} (l : List Job) :
    ∀ st : InvState γ, ∀ k ∈ (l.foldl depStep st).sh.blocking.map Prod.fst,
      k ∈ st.sh.blocking.map Prod.fst ∨ k ∉ st.sh.finished := by
  induction l with
  | nil => intro st k hk; exact Or.inl hk
  | cons c rest ih =>
    intro st k hk
    rw [List.foldl_cons] at hk
    rcases ih (depStep st c) k hk with h | h
    · rcases schedule_keys { st with deferred := st.deferred.filter (fun x => !(x.id == c.id)) } c k h with h2 | h2
      · exact Or.inl h2
      · exact Or.inr h2
    · rw [(depStep_frame st c).1] at h
      exact Or.inr h

theorem eraseBlocking_keys (m : List (Nat × List Job)) (i : Nat) :
    ∀ k ∈ (eraseBlocking m i).map Prod.fst, k ∈ m.map Prod.fst ∧ k ≠ i := by
  intro k hk
  unfold eraseBlocking at hk
  rcases List.mem_map.mp hk with ⟨e, he, rfl⟩
  have h1 := List.mem_filter.mp he
  refine ⟨List.mem_map.mpr ⟨e, h1.1, rfl⟩, ?_⟩
  have h2 := h1.2
  simp only [Bool.not_eq_true'] at h2
  intro hx
  rw [hx] at h2
  simp at h2

theorem finishAndUnblock_keysOK {γ : Type} (st : InvState γ) (cmd : Job)
    (h : KeysOK st.sh) : KeysOK (finishAndUnblock st cmd).sh := by
  intro k hk
  unfold finishAndUnblock at hk ⊢
  dsimp only at hk ⊢
  set st1 : InvState γ :=
    { st with sh := { st.sh with finished := insertId st.sh.finished cmd.id } } with hst1
  obtain ⟨hk2, hkne⟩ := eraseBlocking_keys _ cmd.id k hk
  have hfin : (scheduleAll st1 (blockedOn st1.sh.blocking cmd.id)).sh.finished
      = insertId st.sh.finished cmd.id := (scheduleAll_frame _ st1).1
  rcases scheduleAll_keys (blockedOn st1.sh.blocking cmd.id) st1 k hk2 with h2 | h2
  · have hnot : k ∉ st.sh.finished := h k h2
    rw [hfin]
    intro hmem
    rcases (insertId_mem _ _ _).mp hmem with hmem | hmem
    · exact hnot hmem
    · exact hkne hmem
  · rw [hfin]
    exact h2

theorem reloadAndMark_keysOK {γ : Type} (O : DepGraphModel γ) (st : InvState γ)
    (cmd : Job) (h : KeysOK st.sh) : KeysOK (reloadAndMark O st cmd).sh := by
  unfold reloadAndMark
  dsimp only
  split
  · exact h
  · split
    · exact h
    · split
      · rename_i g2 heq
        intro k hk
        dsimp only at hk
        have hfin := (scheduleAll_frame (γ := γ) st.deferred
          { st with dg := g2, needToRun := true }).1
        rcases scheduleAll_keys st.deferred { st with dg := g2, needToRun := true } k hk with h2 | h2
        · rw [hfin]; exact h k h2
        · rw [hfin]; exact h2
      · exact h
      · rename_i g2 heq
        split
        · intro k hk
          have hfin := (depFold_frame (γ := γ) (O.markTransitive g2 cmd.id).2
            { st with dg := (O.markTransitive g2 cmd.id).1 }).1
          rcases depFold_keys (O.markTransitive g2 cmd.id).2
            { st with dg := (O.markTransitive g2 cmd.id).1 } k hk with h2 | h2
          · rw [hfin]; exact h k h2
          · rw [hfin]; exact h2
        · exact h

theorem taskFinished_keysOK {γ : Type} (O : DepGraphModel γ) (st : InvState γ)
    (cmd : Job) (rc : Int) (h : KeysOK st.sh) : KeysOK (taskFinished O st cmd rc).sh := by
  by_cases hrc : rc = 0
  · subst hrc
    rw [taskFinished_zero]
    exact reloadAndMark_keysOK O _ cmd (finishAndUnblock_keysOK st cmd h)
  · intro k hk
    have hf := taskFinished_fail O st cmd rc hrc
    rw [hf.2.2.2.2.1] at hk
    rw [hf.2.2.2.1]
    exact h k hk

theorem execStep_keysOK {γ : Type} (O : DepGraphModel γ) (st : InvState γ)
    (e : TaskEvent) (h : KeysOK st.sh) : KeysOK (execStep O st e).sh := by
  unfold execStep
  split
  · exact h
  · split
    · exact taskFinished_keysOK O st _ _ h
    · rename_i cmd msg
      intro k hk
      have hf := taskSignalled_frame st cmd msg
      rw [hf.2.2.2.2.1] at hk
      rw [hf.2.2.2.1]
      exact h k hk

theorem executeTrace_keysOK {γ : Type} (O : DepGraphModel γ) (tr : List TaskEvent) :
    ∀ st : InvState γ, KeysOK st.sh → KeysOK (executeTrace O tr st).sh := by
  induction tr with
  | nil => intro st h; exact h
  | cons e rest ih =>
    intro st h
    rw [executeTrace_cons]
    exact ih (execStep O st e) (execStep_keysOK O st e h)

theorem execStep_finished_mem {γ : Type} (O : DepGraphModel γ) (st : InvState γ)
    (cmd : Job) (hc : st.sh.crashed = none) :
    cmd.id ∈ (execStep O st (TaskEvent.finished cmd 0)).sh.finished := by
  have hst : execStep O st (TaskEvent.finished cmd 0) = taskFinished O st cmd 0 := by
    unfold execStep
    rw [if_neg (by rw [hc]; decide)]
  rw [hst, taskFinished_zero]
  rw [(reloadAndMark_frame O (finishAndUnblock st cmd) cmd).1]
  rw [(finishAndUnblock_frame st cmd).1]
  exact (insertId_mem _ _ _).mpr (Or.inr rfl)

theorem executeTrace_append {γ : Type} (O : DepGraphModel γ) (l1 l2 : List TaskEvent)
    (st : InvState γ) :
    executeTrace O (l1 ++ l2) st = executeTrace O l2 (executeTrace O l1 st) := by
  unfold executeTrace
  exact List.foldl_append ..

theorem events_success {γ : Type} (O : DepGraphModel γ) (tr : List TaskEvent) :
    ∀ st : InvState γ, st.result = 0 → (executeTrace O tr st).result = 0 →
      (executeTrace O tr st).sh.crashed = none →
      ∀ e ∈ tr, TaskEvent.isSuccess e = true := by
  induction tr with
  | nil => intro st _ _ _ e he; cases he
  | cons e0 rest ih =>
    intro st h0 hrF hcF e he
    have hcn : st.sh.crashed = none := executeTrace_crashed_none O (e0 :: rest) st hcF
    rw [executeTrace_cons] at hrF hcF
    have hstep0 : (execStep O st e0).result = 0 := by
      by_contra hne
      exact (result_nonzero_stable O rest (execStep O st e0) hne) hrF
    have he0succ : TaskEvent.isSuccess e0 = true := by
      cases e0 with
      | finished cmd rc =>
          by_cases hrc : rc = 0
          · subst hrc; simp [TaskEvent.isSuccess]
          · exfalso
            have hst : execStep O st (TaskEvent.finished cmd rc) = taskFinished O st cmd rc := by
              unfold execStep
              rw [if_neg (by rw [hcn]; decide)]
            rw [hst, (taskFinished_fail O st cmd rc hrc).2.2.2.2.2.2.2.2.2.2.1,
                if_pos h0] at hstep0
            exact hrc hstep0
      | signalled cmd msg =>
          exfalso
          have hst : execStep O st (TaskEvent.signalled cmd msg) = taskSignalled st cmd msg := by
            unfold execStep
            rw [if_neg (by rw [hcn]; decide)]
          rw [hst, (taskSignalled_frame st cmd msg).2.2.2.2.2.2.2.2] at hstep0
          cases hstep0
    rcases he with _ | he2
    · exact he0succ
    · exact ih (execStep O st e0) hstep0 hrF hcF e (by assumption)

/-! ## The fallback within one invocation -/

theorem processOneJob_fallback {γ : Type} (O : DepGraphModel γ) (st : InvState γ)
    (cmd : Job) (hc : st.sh.crashed = none) (hn : st.needToRun = true) :
    processOneJob O st cmd = schedule st cmd := by
  unfold processOneJob
  rw [if_neg (by rw [hc]; decide), if_pos hn]

theorem processOneJob_needToRun_mono {γ : Type} (O : DepGraphModel γ)
    (st : InvState γ) (cmd : Job) (hn : st.needToRun = true) :
    (processOneJob O st cmd).needToRun = true := by
  unfold processOneJob
  rw [if_pos hn]
  split
  · exact hn
  · rw [(schedule_frame st cmd).2.2.2.2.2.1]
    exact hn


theorem walkList_fallback_attempts {γ : Type} (tro : Nat → List TaskEvent)
    (O : DepGraphModel γ) :
    ∀ (JL : List Job) (st : InvState γ) (ctr : Nat) (st2 : InvState γ) (c2 : Nat),
      st.needToRun = true →
      walkList tro O JL st ctr = (none, st2, c2) →
      st2.sh.crashed = none →
      ∀ cmd ∈ JL, cmd.id ∈ st2.sh.attempts := by
  intro JL
  induction JL with
  | nil => intro st ctr st2 c2 _ _ _ cmd hcmd; cases hcmd
  | cons cmd0 rest ih =>
    intro st ctr st2 c2 hn hw hc2 cmd hcmd
    rcases hinner : performJobsInList tro O cmd0.inputs st.sh ctr with ⟨r, sh2, cc⟩
    simp only [walkList, hinner] at hw
    by_cases hr : r = 0
    · rw [if_neg (not_not_intro hr)] at hw
      set stA : InvState γ := { st with sh := sh2 } with hstA
      set stB : InvState γ := processOneJob O stA cmd0 with hstB
      have hwB : walkList tro O rest stB cc = (none, st2, c2) := hw
      have hBn : stB.needToRun = true := by
        rw [hstB]
        exact processOneJob_needToRun_mono O stA cmd0 hn
      have hBc : stB.sh.crashed = none := by
        cases hcs : stB.sh.crashed with
        | none => rfl
        | some c =>
            have := (walkList_evolves tro O rest stB cc).2.2.2.1 c hcs
            rw [hwB] at this
            rw [this] at hc2
            cases hc2
      have hAc : stA.sh.crashed = none := by
        cases hcs : stA.sh.crashed with
        | none => rfl
        | some c =>
            have := (processOneJob_evolves O stA cmd0).2.2.2.1 c hcs
            rw [← hstB] at this
            rw [this] at hBc
            cases hBc
      rcases hcmd with _ | hcmd2
      · have hsched : stB = schedule stA cmd0 := by
          rw [hstB]
          exact processOneJob_fallback O stA cmd0 hAc hn
        have hmem : cmd0.id ∈ stB.sh.attempts := by
          rw [hsched]
          exact schedule_attempt_self stA cmd0
        have := (walkList_evolves tro O rest stB cc).2.2.1 cmd0.id hmem
        rw [hwB] at this
        exact this
      · exact ih stB cc st2 c2 hBn hwB hc2 cmd (by assumption)
    · rw [if_pos hr] at hw
      cases hw

/-! ## Further small helpers used by the claims -/

theorem finalize_result {γ : Type} (st : InvState γ) : (finalize st).result = st.result := by
  unfold finalize
  split
  · rfl
  · dsimp only
    split
    · show (st.deferred.foldl skipStep st).result = st.result
      exact (skipFold_frame st.deferred st).2.2.2
    · exact (skipFold_frame st.deferred st).2.2.2

theorem findUnfinishedJob_none_iff (jl : List Job) (fin : List Nat) :
    findUnfinishedJob jl fin = none ↔ ∀ d ∈ jl, d.id ∈ fin := by
  unfold findUnfinishedJob
  rw [List.find?_eq_none]
  constructor
  · intro h d hd
    simpa using h d hd
  · intro h d hd
    simpa using h d hd

theorem findUnfinishedJob_some_spec (jl : List Job) (fin : List Nat) (b : Job)
    (h : findUnfinishedJob jl fin = some b) :
    ∃ l1 l2, jl = l1 ++ b :: l2 ∧ (∀ d ∈ l1, d.id ∈ fin) ∧ b.id ∉ fin := by
  induction jl with
  | nil => cases h
  | cons x rest ih =>
    unfold findUnfinishedJob at h
    rw [List.find?_cons] at h
    split at h
    · rename_i hp
      have hb : x = b := by
        injection h
      subst hb
      refine ⟨[], rest, rfl, ?_, ?_⟩
      · intro d hd; cases hd
      · simpa using hp
    · rename_i hp
      obtain ⟨l1, l2, hsplit, h1, h2⟩ := ih h
      refine ⟨x :: l1, l2, by rw [hsplit]; rfl, ?_, h2⟩
      intro d hd
      rcases hd with _ | hd2
      · simpa using hp
      · exact h1 d (by assumption)

/-! ## The claims -/

/-- C6: within one run, no task is ever submitted to the executor more than
once: across the initial walk, unblocking, fallback activation and
transitive-mark promotion at every nesting level, the log of `TQ->addTask`
calls of a whole run contains no job twice, for every task graph, dependency
oracle, and executor schedule. -/
theorem C6_atMostOnceSubmission {γ : Type} (tro : Nat → List TaskEvent)
    (O : DepGraphModel γ) (JL : List Job) :
    (performJobsInList tro O JL initialShared 0).2.1.allSubmitted.Nodup := by
  have h := performJobsInList_evolves tro O JL initialShared 0
  have hg : Good initialShared := by
    constructor
    · exact List.nodup_nil
    · intro i hi
      cases hi
  exact (h.2.2.2.2 hg).1

/-- C5: along one executor drain starting from a zero result, if no task is
signalled, the final result is the first non-zero exit code observed (0 when
all exit codes are 0, and later non-zero codes never overwrite the first);
if any task is signalled, the final result is the sentinel `-2`,
regardless of whether non-zero exit codes occur before or after it. -/
theorem C5_resultPriority {γ : Type} (O : DepGraphModel γ) (tr : List TaskEvent)
    (st : InvState γ) (h0 : st.result = 0)
    (hcF : (executeTrace O tr st).sh.crashed = none) :
    (hasSignal tr = false → (executeTrace O tr st).result = firstNonZeroRC tr) ∧
    (hasSignal tr = true → (executeTrace O tr st).result = -2) := by
  constructor
  · intro hs
    exact result_firstNonZero_nosignal O tr st hs h0 hcF
  · intro hs
    exact result_neg2_of_signal O tr st hs hcF

/-- C9: when a task finishes with a non-zero exit code, the generic
command-failed diagnostic naming the tool and the code is appended exactly
when it is not the case that the tool has good diagnostics and the code is
the one such a tool covers (code 1); equivalently, the diagnostics list
changes iff that conjunction fails. -/
theorem C9_failureDiagnostic {γ : Type} (O : DepGraphModel γ) (st : InvState γ)
    (cmd : Job) (rc : Int) (h : rc ≠ 0) :
    (taskFinished O st cmd rc).sh.diags
      = st.sh.diags ++ (if cmd.tool.goodDiags = true ∧ rc = 1 then []
                        else [Diag.commandFailed cmd.tool.name rc]) ∧
    ((taskFinished O st cmd rc).sh.diags ≠ st.sh.diags
      ↔ ¬ (cmd.tool.goodDiags = true ∧ rc = 1)) := by
  have hf := (taskFinished_fail O st cmd rc h).2.2.2.2.2.2.2.2.2.2.2
  refine ⟨hf, ?_⟩
  by_cases hg : cmd.tool.goodDiags = true ∧ rc = 1
  · rw [hf, if_pos hg]
    simp [hg]
  · rw [hf, if_neg hg]
    constructor
    · intro _; exact hg
    · intro _
      intro habs
      have := congrArg List.length habs
      simp at this

/-- C1 (amended): the callback observing a failing outcome performs no
submission itself — a `taskFinished` with non-zero exit code changes only
the result and the diagnostics (recording the first non-zero code), and
`taskSignalled` changes only the diagnostics and the result (to `-2`); in
particular neither adds to the task queue, the submission log, or the
scheduling state.  (A later *successful* completion processed after the
result became non-zero can still submit new tasks; see the
counterexample.) -/
theorem C1_failedEventFrame {γ : Type} (O : DepGraphModel γ) (st : InvState γ)
    (cmd : Job) (rc : Int) (msg : String) (h : rc ≠ 0) :
    ((taskFinished O st cmd rc).tq = st.tq ∧
     (taskFinished O st cmd rc).sh.allSubmitted = st.sh.allSubmitted ∧
     (taskFinished O st cmd rc).sh.scheduled = st.sh.scheduled ∧
     (taskFinished O st cmd rc).sh.finished = st.sh.finished ∧
     (taskFinished O st cmd rc).sh.blocking = st.sh.blocking ∧
     (taskFinished O st cmd rc).deferred = st.deferred ∧
     (taskFinished O st cmd rc).result = (if st.result = 0 then rc else st.result)) ∧
    ((taskSignalled st cmd msg).tq = st.tq ∧
     (taskSignalled st cmd msg).sh.allSubmitted = st.sh.allSubmitted ∧
     (taskSignalled st cmd msg).sh.scheduled = st.sh.scheduled ∧
     (taskSignalled st cmd msg).result = -2) := by
  have hf := taskFinished_fail O st cmd rc h
  have hs := taskSignalled_frame st cmd msg
  exact ⟨⟨hf.1, hf.2.1, hf.2.2.1, hf.2.2.2.1, hf.2.2.2.2.1, hf.2.2.2.2.2.2.2.1,
          hf.2.2.2.2.2.2.2.2.2.2.1⟩,
         ⟨hs.1, hs.2.1, hs.2.2.1, hs.2.2.2.2.2.2.2.2⟩⟩

/-- C10: whenever `performJobs` takes the single-command path (a single
input-free job and no parseable output), it returns without reaching the
temporary-file removal loop — no registered temporary file is removed —
including the case where the command's condition is `CheckDependencies` and
the function returns 0 without running anything. -/
theorem C10_fastPathNoTempRemoval {γ : Type} (tro : Nat → List TaskEvent)
    (O : DepGraphModel γ) (execCode : Int) (cmd : Job) (level : OutputLevel)
    (numParallel : Nat) (parallelSupported : Bool) (tempFilePaths : List String)
    (hlev : level ≠ OutputLevel.Parseable) (hin : cmd.inputs = []) :
    (performJobs tro O execCode [cmd] level numParallel parallelSupported
        tempFilePaths).2.2 = [] ∧
    (cmd.cond = Condition.CheckDependencies →
      (performJobs tro O execCode [cmd] level numParallel parallelSupported
          tempFilePaths).1 = 0) := by
  have honly : getOnlyCommandInList [cmd] = some cmd := by
    simp [getOnlyCommandInList, hin]
  constructor
  · unfold performJobs
    rw [if_neg hlev, honly]
  · intro hcond
    unfold performJobs
    rw [if_neg hlev, honly]
    simp [performSingleCommand, hcond]

/-- C7: a scheduling attempt submits a task iff the task is not already in
the scheduled set and every one of its (ordered) dependencies is in the
finished set; if it is already scheduled, nothing changes; if it is not
scheduled and some dependency is unfinished, the task is registered as
blocked on exactly the first unfinished dependency of its ordered input
list, and the queue, the scheduled and finished sets and the deferred set
are untouched. -/
theorem C7_readinessRule {γ : Type} (st : InvState γ) (cmd : Job) :
    ((schedule st cmd).tq = st.tq ++ [cmd]
      ↔ (cmd.id ∉ st.sh.scheduled ∧ ∀ d ∈ cmd.inputs, d.id ∈ st.sh.finished)) ∧
    (cmd.id ∈ st.sh.scheduled →
      (schedule st cmd).tq = st.tq ∧
      (schedule st cmd).sh.blocking = st.sh.blocking ∧
      (schedule st cmd).sh.scheduled = st.sh.scheduled ∧
      (schedule st cmd).sh.allSubmitted = st.sh.allSubmitted) ∧
    (∀ b, cmd.id ∉ st.sh.scheduled →
      findUnfinishedJob cmd.inputs st.sh.finished = some b →
      (∃ l1 l2, cmd.inputs = l1 ++ b :: l2 ∧ (∀ d ∈ l1, d.id ∈ st.sh.finished)
        ∧ b.id ∉ st.sh.finished) ∧
      (schedule st cmd).sh.blocking = pushBlocking st.sh.blocking b.id cmd ∧
      (schedule st cmd).tq = st.tq ∧
      (schedule st cmd).sh.scheduled = st.sh.scheduled ∧
      (schedule st cmd).sh.finished = st.sh.finished ∧
      (schedule st cmd).sh.allSubmitted = st.sh.allSubmitted ∧
      (schedule st cmd).deferred = st.deferred) := by
  refine ⟨?_, ?_, ?_⟩
  · constructor
    · intro htq
      by_cases hsch : cmd.id ∈ st.sh.scheduled
      · exfalso
        have : (schedule st cmd).tq = st.tq := by
          unfold schedule
          rw [if_pos (by simpa using hsch)]
        rw [this] at htq
        have := congrArg List.length htq
        simp at this
      · refine ⟨hsch, ?_⟩
        cases hf : findUnfinishedJob cmd.inputs st.sh.finished with
        | some b =>
            exfalso
            have : (schedule st cmd).tq = st.tq := by
              unfold schedule
              rw [if_neg (by simpa using hsch), hf]
            rw [this] at htq
            have := congrArg List.length htq
            simp at this
        | none => exact (findUnfinishedJob_none_iff cmd.inputs st.sh.finished).mp hf
    · rintro ⟨hsch, hfin⟩
      have hf : findUnfinishedJob cmd.inputs st.sh.finished = none :=
        (findUnfinishedJob_none_iff cmd.inputs st.sh.finished).mpr hfin
      unfold schedule
      rw [if_neg (by simpa using hsch), hf]
  · intro hsch
    unfold schedule
    rw [if_pos (by simpa using hsch)]
    exact ⟨rfl, rfl, rfl, rfl⟩
  · intro b hsch hf
    refine ⟨findUnfinishedJob_some_spec cmd.inputs st.sh.finished b hf, ?_⟩
    unfold schedule
    rw [if_neg (by simpa using hsch), hf]
    exact ⟨rfl, rfl, rfl, rfl, rfl, rfl⟩

theorem depStep_deferred_sub {γ : Type} (s : InvState γ) (d : Job) :
    ∀ x ∈ (depStep s d).deferred, x ∈ s.deferred := by
  intro x hx
  rw [depStep_sh, (schedule_frame _ d).2.2.2.2.1] at hx
  exact (List.mem_filter.mp hx).1

theorem depFold_deferred_sub {γ : Type} (l : List Job) :
    ∀ (st : InvState γ), ∀ x ∈ (l.foldl depStep st).deferred, x ∈ st.deferred := by
  induction l with
  | nil => intro st x hx; exact hx
  | cons c rest ih =>
    intro st x hx
    rw [List.foldl_cons] at hx
    exact depStep_deferred_sub st c x (ih (depStep st c) x hx)

theorem depStep_deferred_removed {γ : Type} (s : InvState γ) (d : Job) :
    d.id ∉ (depStep s d).deferred.map Job.id := by
  intro hmem
  rcases List.mem_map.mp hmem with ⟨x, hx, hxid⟩
  rw [depStep_sh, (schedule_frame _ d).2.2.2.2.1] at hx
  have h2 := (List.mem_filter.mp hx).2
  rw [hxid] at h2
  simp at h2

theorem depFold_deferred_removed {γ : Type} (l : List Job) :
    ∀ (st : InvState γ), ∀ d ∈ l, d.id ∉ ((l.foldl depStep st).deferred.map Job.id) := by
  induction l with
  | nil => intro st d hd; cases hd
  | cons c rest ih =>
    intro st d hd
    rw [List.foldl_cons]
    rcases hd with _ | hd2
    · intro hmem
      rcases List.mem_map.mp hmem with ⟨x, hx, hxid⟩
      have hx2 : x ∈ (depStep st c).deferred := depFold_deferred_sub rest (depStep st c) x hx
      exact depStep_deferred_removed st c (List.mem_map.mpr ⟨x, hx2, hxid⟩)
    · exact ih (depStep st c) d (by assumption)

theorem depFold_attempt_mem {γ : Type} (l : List Job) :
    ∀ (st : InvState γ), ∀ d ∈ l, d.id ∈ (l.foldl depStep st).sh.attempts := by
  induction l with
  | nil => intro st d hd; cases hd
  | cons c rest ih =>
    intro st d hd
    rw [List.foldl_cons]
    rcases hd with _ | hd2
    · exact (depFold_evolves rest (depStep st c)).2.2.1 c.id
        (schedule_attempt_self { st with deferred := st.deferred.filter (fun x => !(x.id == c.id)) } c)
    · exact ih (depStep st c) d (by assumption)

/-- C8: in the success path of the completion handler, when the record
reloads `Valid`, the is-marked query is evaluated on the dependency-graph
state from *before* the reload (`wasNonPrivate`), and the transitive mark is
performed iff that pre-reload value is true: two oracles agreeing up to the
pre-reload is-marked value produce identical results (post-reload is-marked
values are never consulted); when the pre-reload value is true the handler
runs the dependents loop, removing each returned dependent from the deferred
set and giving it a scheduling attempt (its own run-condition is never
consulted); when it is false, the state is unchanged apart from the reloaded
graph. -/
theorem C8_captureBeforeReload {γ : Type} (O O2 : DepGraphModel γ)
    (st : InvState γ) (cmd : Job) (p : String) (g2 : γ)
    (hntr : st.needToRun = false) (hdf : cmd.depFile = some p)
    (hload : O.load st.dg cmd.id p = (g2, LoadResult.Valid))
    (hO2load : O2.load = O.load) (hO2mt : O2.markTransitive = O.markTransitive)
    (hO2mark : O2.isMarked st.dg cmd.id = O.isMarked st.dg cmd.id) :
    (taskFinished O st cmd 0 = reloadAndMark O (finishAndUnblock st cmd) cmd) ∧
    (reloadAndMark O2 st cmd = reloadAndMark O st cmd) ∧
    (O.isMarked st.dg cmd.id = true →
      reloadAndMark O st cmd
        = (O.markTransitive g2 cmd.id).2.foldl depStep
            { st with dg := (O.markTransitive g2 cmd.id).1 } ∧
      ∀ d ∈ (O.markTransitive g2 cmd.id).2,
        d.id ∉ ((reloadAndMark O st cmd).deferred.map Job.id) ∧
        d.id ∈ (reloadAndMark O st cmd).sh.attempts) ∧
    (O.isMarked st.dg cmd.id = false →
      reloadAndMark O st cmd = { st with dg := g2 }) := by
  have hne : ¬ st.needToRun = true := by rw [hntr]; decide
  have hred : reloadAndMark O st cmd
      = (if O.isMarked st.dg cmd.id then
           (O.markTransitive g2 cmd.id).2.foldl depStep
             { st with dg := (O.markTransitive g2 cmd.id).1 }
         else { st with dg := g2 }) := by
    unfold reloadAndMark
    rw [if_neg hne, hdf]
    dsimp only
    rw [hload]
  refine ⟨taskFinished_zero O st cmd, ?_, ?_, ?_⟩
  · have hred2 : reloadAndMark O2 st cmd
        = (if O.isMarked st.dg cmd.id then
             (O.markTransitive g2 cmd.id).2.foldl depStep
               { st with dg := (O.markTransitive g2 cmd.id).1 }
           else { st with dg := g2 }) := by
      unfold reloadAndMark
      rw [if_neg hne, hdf]
      dsimp only
      rw [hO2mark, hO2load, hO2mt, hload]
    rw [hred, hred2]
  · intro hm
    rw [hred, if_pos hm]
    refine ⟨rfl, ?_⟩
    intro d hd
    exact ⟨depFold_deferred_removed (O.markTransitive g2 cmd.id).2
             { st with dg := (O.markTransitive g2 cmd.id).1 } d hd,
           depFold_attempt_mem (O.markTransitive g2 cmd.id).2
             { st with dg := (O.markTransitive g2 cmd.id).1 } d hd⟩
  · intro hm
    rw [hred, if_neg (by rw [hm]; decide)]

/-- C4 (amended): on a successful drain (result 0 before and after, no
internal-consistency abort) in which every task submitted to the current
invocation's queue receives a completion event, every blocker remaining in
the blocking map was never submitted to the current invocation's queue; the
map need not be empty — a blocker submitted at an *outer* nesting level can
leave a live entry behind, which is what makes the end-of-invocation
assertion falsifiable (see the counterexample). -/
theorem C4_blockingKeysUnsubmitted {γ : Type} (O : DepGraphModel γ)
    (tr : List TaskEvent) (st : InvState γ)
    (hK : ∀ k ∈ st.sh.blocking.map Prod.fst, k ∉ st.sh.finished)
    (hr0 : st.result = 0)
    (hrF : (executeTrace O tr st).result = 0)
    (hcF : (executeTrace O tr st).sh.crashed = none)
    (hcomp : ∀ j ∈ (executeTrace O tr st).tq, ∃ e ∈ tr, TaskEvent.jobId e = j.id) :
    ∀ k ∈ (executeTrace O tr st).sh.blocking.map Prod.fst,
      k ∉ (executeTrace O tr st).tq.map Job.id := by
  intro k hk hmemtq
  obtain ⟨j, hj, hjid⟩ := List.mem_map.mp hmemtq
  obtain ⟨e, he, hid⟩ := hcomp j hj
  have hsucc := events_success O tr st hr0 hrF hcF e he
  cases e with
  | signalled cmd msg => simp [TaskEvent.isSuccess] at hsucc
  | finished cmd rc =>
      have hrc : rc = 0 := by simpa [TaskEvent.isSuccess] using hsucc
      subst hrc
      obtain ⟨l1, l2, htr⟩ := List.append_of_mem he
      subst htr
      have hsplit : executeTrace O (l1 ++ TaskEvent.finished cmd 0 :: l2) st
          = executeTrace O l2 (execStep O (executeTrace O l1 st) (TaskEvent.finished cmd 0)) := by
        rw [executeTrace_append, executeTrace_cons]
      have hc1 : (executeTrace O l1 st).sh.crashed = none := by
        rw [hsplit] at hcF
        exact execStep_crashed_none O _ _ (executeTrace_crashed_none O l2 _ hcF)
      have hmemfin : cmd.id
          ∈ (execStep O (executeTrace O l1 st) (TaskEvent.finished cmd 0)).sh.finished :=
        execStep_finished_mem O _ cmd hc1
      have hfinal : cmd.id
          ∈ (executeTrace O (l1 ++ TaskEvent.finished cmd 0 :: l2) st).sh.finished := by
        rw [hsplit]
        exact (executeTrace_evolves O l2 _).2.1 cmd.id hmemfin
      have hKf : KeysOK (executeTrace O (l1 ++ TaskEvent.finished cmd 0 :: l2) st).sh :=
        executeTrace_keysOK O _ st hK
      have hcmdk : cmd.id = k := by
        have hj2 : TaskEvent.jobId (TaskEvent.finished cmd 0) = cmd.id := rfl
        rw [hj2] at hid
        rw [hid, hjid]
      rw [hcmdk] at hfinal
      exact hKf k hk hfinal

/-- C3 (amended): the rebuild-everything fallback is scoped to the single
invocation of `performJobsInList` in which the failing record load occurred,
not to the whole run.  Within that invocation it is complete: once
`NeedToRunEverything` is set, (a) the end-of-walk flush gives every deferred
node a scheduling attempt and empties the deferred set, (b) a record reload
returning `HadError` in the completion handler does the same, and (c) every
node visited by the rest of that invocation's walk receives a scheduling
attempt regardless of its run-condition.  (Nodes of *other* invocations are
unaffected; see the counterexample.) -/
theorem C3_fallbackInvocationScope {γ : Type} (tro : Nat → List TaskEvent)
    (O : DepGraphModel γ) :
    (∀ st : InvState γ, st.sh.crashed = none → st.needToRun = true →
      (flushDeferred st).deferred = [] ∧
      ∀ d ∈ st.deferred, d.id ∈ (flushDeferred st).sh.attempts) ∧
    (∀ (st : InvState γ) (cmd : Job) (p : String) (g2 : γ),
      st.needToRun = false → cmd.depFile = some p →
      O.load st.dg cmd.id p = (g2, LoadResult.HadError) →
      (reloadAndMark O st cmd).deferred = [] ∧
      ∀ d ∈ st.deferred, d.id ∈ (reloadAndMark O st cmd).sh.attempts) ∧
    (∀ (JL : List Job) (st : InvState γ) (ctr : Nat) (st2 : InvState γ) (c2 : Nat),
      st.needToRun = true →
      walkList tro O JL st ctr = (none, st2, c2) →
      st2.sh.crashed = none →
      ∀ cmd ∈ JL, cmd.id ∈ st2.sh.attempts) := by
  refine ⟨?_, ?_, ?_⟩
  · intro st hc hn
    have hred : flushDeferred st = { scheduleAll st st.deferred with deferred := [] } := by
      unfold flushDeferred
      rw [if_neg (by rw [hc]; decide), if_pos hn]
    rw [hred]
    exact ⟨rfl, fun d hd => scheduleAll_attempt_mem st.deferred st d hd⟩
  · intro st cmd p g2 hn hdf hload
    have hred : reloadAndMark O st cmd
        = { scheduleAll { st with dg := g2, needToRun := true } st.deferred with deferred := [] } := by
      unfold reloadAndMark
      rw [if_neg (by rw [hn]; decide), hdf]
      dsimp only
      rw [hload]
    rw [hred]
    exact ⟨rfl, fun d hd =>
      scheduleAll_attempt_mem st.deferred { st with dg := g2, needToRun := true } d hd⟩
  · exact walkList_fallback_attempts tro O

/-! ## Monotonicity of the submission log, and single-task drains -/

theorem schedule_allSub_mono {γ : Type} (st : InvState γ) (cmd : Job) :
    ∀ i ∈ st.sh.allSubmitted, i ∈ (schedule st cmd).sh.allSubmitted := by
  intro i h
  unfold schedule
  dsimp only
  split
  · exact h
  · split
    · exact h
    · simp only [List.mem_append]
      exact Or.inl h

theorem scheduleAll_allSub_mono {γ : Type} (l : List Job) :
    ∀ (st : InvState γ), ∀ i ∈ st.sh.allSubmitted, i ∈ (scheduleAll st l).sh.allSubmitted := by
  induction l with
  | nil => intro st i h; exact h
  | cons c rest ih =>
    intro st i h
    rw [scheduleAll_cons]
    exact ih (schedule st c) i (schedule_allSub_mono st c i h)

theorem depFold_allSub_mono {γ : Type} (l : List Job) :
    ∀ (st : InvState γ), ∀ i ∈ st.sh.allSubmitted, i ∈ (l.foldl depStep st).sh.allSubmitted := by
  induction l with
  | nil => intro st i h; exact h
  | cons c rest ih =>
    intro st i h
    rw [List.foldl_cons]
    exact ih (depStep st c) i (schedule_allSub_mono _ c i h)

theorem finishAndUnblock_allSub_mono {γ : Type} (st : InvState γ) (cmd : Job) :
    ∀ i ∈ st.sh.allSubmitted, i ∈ (finishAndUnblock st cmd).sh.allSubmitted := by
  intro i h
  unfold finishAndUnblock
  dsimp only
  exact scheduleAll_allSub_mono _ _ i h

theorem reloadAndMark_allSub_mono {γ : Type} (O : DepGraphModel γ) (st : InvState γ)
    (cmd : Job) : ∀ i ∈ st.sh.allSubmitted, i ∈ (reloadAndMark O st cmd).sh.allSubmitted := by
  intro i h
  unfold reloadAndMark
  dsimp only
  split
  · exact h
  · split
    · exact h
    · split
      · exact scheduleAll_allSub_mono _ _ i h
      · exact h
      · split
        · exact depFold_allSub_mono _ _ i h
        · exact h

theorem taskFinished_allSub_mono {γ : Type} (O : DepGraphModel γ) (st : InvState γ)
    (cmd : Job) (rc : Int) :
    ∀ i ∈ st.sh.allSubmitted, i ∈ (taskFinished O st cmd rc).sh.allSubmitted := by
  intro i h
  by_cases hrc : rc = 0
  · subst hrc
    rw [taskFinished_zero]
    exact reloadAndMark_allSub_mono O _ cmd i (finishAndUnblock_allSub_mono st cmd i h)
  · rw [(taskFinished_fail O st cmd rc hrc).2.1]
    exact h

theorem execStep_allSub_mono {γ : Type} (O : DepGraphModel γ) (st : InvState γ)
    (e : TaskEvent) : ∀ i ∈ st.sh.allSubmitted, i ∈ (execStep O st e).sh.allSubmitted := by
  intro i h
  unfold execStep
  split
  · exact h
  · split
    · exact taskFinished_allSub_mono O st _ _ i h
    · rename_i cmd msg
      rw [(taskSignalled_frame st cmd msg).2.1]
      exact h

theorem executeTrace_allSub_mono {γ : Type} (O : DepGraphModel γ) (tr : List TaskEvent) :
    ∀ (st : InvState γ), ∀ i ∈ st.sh.allSubmitted, i ∈ (executeTrace O tr st).sh.allSubmitted := by
  induction tr with
  | nil => intro st i h; exact h
  | cons e rest ih =>
    intro st i h
    rw [executeTrace_cons]
    exact ih (execStep O st e) i (execStep_allSub_mono O st e i h)

theorem skipFold_allSub {γ : Type} (l : List Job) :
    ∀ (st : InvState γ), (l.foldl skipStep st).sh.allSubmitted = st.sh.allSubmitted := by
  induction l with
  | nil => intro st; rfl
  | cons c rest ih =>
    intro st
    rw [List.foldl_cons, ih (skipStep st c)]
    exact (skipStep_frame st c).2.2.2.1

theorem finalize_allSub {γ : Type} (st : InvState γ) :
    (finalize st).sh.allSubmitted = st.sh.allSubmitted := by
  unfold finalize
  split
  · rfl
  · dsimp only
    split
    · show (setCrash (st.deferred.foldl skipStep st) Crash.assertBlocking).sh.allSubmitted = _
      unfold setCrash
      exact skipFold_allSub st.deferred st
    · exact skipFold_allSub st.deferred st

theorem finalize_id {γ : Type} (x : InvState γ) (hc : x.sh.crashed = none)
    (hd : x.deferred = []) (hb : x.sh.blocking = []) : finalize x = x := by
  unfold finalize
  rw [if_neg (by rw [hc]; decide)]
  dsimp only
  rw [hd]
  simp only [List.foldl_nil]
  rw [if_neg (by rw [hb]; simp)]

theorem finalize_result_clean {γ : Type} (x : InvState γ) (hc : x.sh.crashed = none)
    (hd : x.deferred = []) (hb : x.sh.blocking = []) : (finalize x).result = x.result := by
  rw [finalize_id x hc hd hb]

theorem finalize_of_crashed {γ : Type} (x : InvState γ)
    (h : x.sh.crashed.isSome = true) : finalize x = x := by
  unfold finalize
  rw [if_pos h]

theorem finalize_result_crashed {γ : Type} (x : InvState γ)
    (h : x.sh.crashed.isSome = true) : (finalize x).result = x.result := by
  rw [finalize_of_crashed x h]

/-- The outcome of draining a single completed task from a clean invocation
state: the invocation's result becomes the task's exit code (also when the
dependency-record reload crashes or escalates, given a tracker that reports
no dependents). -/
theorem singleDrain_result {γ : Type} (O : DepGraphModel γ) (st : InvState γ)
    (cmd : Job) (code : Int) (hc : st.sh.crashed = none) (h0 : st.result = 0)
    (hb : st.sh.blocking = []) (hd : st.deferred = [])
    (hmt : ∀ g i, (O.markTransitive g i).2 = []) :
    (finalize (executeTrace O [TaskEvent.finished cmd code] st)).result = code := by
  have hone : executeTrace O [TaskEvent.finished cmd code] st = taskFinished O st cmd code := by
    show execStep O st (TaskEvent.finished cmd code) = taskFinished O st cmd code
    unfold execStep
    rw [if_neg (by rw [hc]; decide)]
  rw [hone]
  by_cases hcode : code = 0
  · subst hcode
    rw [taskFinished_zero]
    have hFf := finishAndUnblock_frame st cmd
    have hFc : (finishAndUnblock st cmd).sh.crashed = none := by rw [hFf.2.1, hc]
    have hFd : (finishAndUnblock st cmd).deferred = [] := by rw [hFf.2.2.2.2.1, hd]
    have hFr : (finishAndUnblock st cmd).result = 0 := by rw [hFf.2.2.2.2.2.2, h0]
    have hFb : (finishAndUnblock st cmd).sh.blocking = [] := by
      simp [finishAndUnblock, blockedOn, eraseBlocking, scheduleAll, hb]
    by_cases hn : (finishAndUnblock st cmd).needToRun = true
    · have hred : reloadAndMark O (finishAndUnblock st cmd) cmd = finishAndUnblock st cmd := by
        unfold reloadAndMark
        rw [if_pos hn]
      rw [hred, finalize_id _ hFc hFd hFb]
      exact hFr
    · cases hdf : cmd.depFile with
      | none =>
          have hred : reloadAndMark O (finishAndUnblock st cmd) cmd = finishAndUnblock st cmd := by
            unfold reloadAndMark
            rw [if_neg hn, hdf]
          rw [hred, finalize_id _ hFc hFd hFb]
          exact hFr
      | some p =>
          rcases hl : O.load (finishAndUnblock st cmd).dg cmd.id p with ⟨g3, lr⟩
          cases lr with
          | HadError =>
              have hred : reloadAndMark O (finishAndUnblock st cmd) cmd
                  = { scheduleAll { finishAndUnblock st cmd with dg := g3, needToRun := true }
                        (finishAndUnblock st cmd).deferred with deferred := [] } := by
                unfold reloadAndMark
                rw [if_neg hn, hdf]
                dsimp only
                rw [hl]
              rw [hred, hFd, scheduleAll_nil]
              refine (finalize_result_clean _ ?_ ?_ ?_).trans ?_
              · exact hFc
              · rfl
              · exact hFb
              · exact hFr
          | NeedsRebuilding =>
              have hred : reloadAndMark O (finishAndUnblock st cmd) cmd
                  = setCrash { finishAndUnblock st cmd with dg := g3 } Crash.unreachableReload := by
                unfold reloadAndMark
                rw [if_neg hn, hdf]
                dsimp only
                rw [hl]
              rw [hred]
              refine (finalize_result_crashed _ ?_).trans ?_
              · rfl
              · exact hFr
          | Valid =>
              have hred : reloadAndMark O (finishAndUnblock st cmd) cmd
                  = (if O.isMarked (finishAndUnblock st cmd).dg cmd.id then
                       (O.markTransitive g3 cmd.id).2.foldl depStep
                         { finishAndUnblock st cmd with dg := (O.markTransitive g3 cmd.id).1 }
                     else { finishAndUnblock st cmd with dg := g3 }) := by
                unfold reloadAndMark
                rw [if_neg hn, hdf]
                dsimp only
                rw [hl]
              rw [hred]
              by_cases hm : O.isMarked (finishAndUnblock st cmd).dg cmd.id = true
              · rw [if_pos hm, hmt g3 cmd.id]
                simp only [List.foldl_nil]
                refine (finalize_result_clean _ ?_ ?_ ?_).trans ?_
                · exact hFc
                · exact hFd
                · exact hFb
                · exact hFr
              · rw [if_neg hm]
                refine (finalize_result_clean _ ?_ ?_ ?_).trans ?_
                · exact hFc
                · exact hFd
                · exact hFb
                · exact hFr
  · have hf := taskFinished_fail O st cmd code hcode
    have h1 : (taskFinished O st cmd code).result = code := by
      rw [hf.2.2.2.2.2.2.2.2.2.2.1, if_pos h0]
    have hc' : (taskFinished O st cmd code).sh.crashed = none := by
      rw [hf.2.2.2.2.2.2.1, hc]
    have hd' : (taskFinished O st cmd code).deferred = [] := by
      rw [hf.2.2.2.2.2.2.2.1, hd]
    have hb' : (taskFinished O st cmd code).sh.blocking = [] := by
      rw [hf.2.2.2.2.1, hb]
    rw [finalize_id _ hc' hd' hb']
    exact h1

theorem performJobsInList_nil_init {γ : Type} (tro : Nat → List TaskEvent)
    (O : DepGraphModel γ) (h0 : tro 0 = []) :
    performJobsInList tro O [] initialShared 0 = (0, initialShared, 1) := by
  simp [performJobsInList, walkList, flushDeferred, executeTrace, h0, finalize, initialShared]

theorem walkList_single_init {γ : Type} (tro : Nat → List TaskEvent)
    (O : DepGraphModel γ) (cmd : Job) (hin : cmd.inputs = []) (h0 : tro 0 = []) :
    walkList tro O [cmd] (⟨initialShared, [], O.emptyGraph, [], false, 0⟩ : InvState γ) 0
      = (none, processOneJob O ⟨initialShared, [], O.emptyGraph, [], false, 0⟩ cmd, 1) := by
  have hnil := performJobsInList_nil_init tro O h0
  simp only [walkList, hin, hnil]
  simp [walkList]

theorem performJobsInList_single_init {γ : Type} (tro : Nat → List TaskEvent)
    (O : DepGraphModel γ) (cmd : Job) (hin : cmd.inputs = []) (h0 : tro 0 = [])
    (ev : List TaskEvent) (h1 : tro 1 = ev) :
    performJobsInList tro O [cmd] initialShared 0
      = ((finalize (executeTrace O ev (flushDeferred
            (processOneJob O ⟨initialShared, [], O.emptyGraph, [], false, 0⟩ cmd)))).result,
         (finalize (executeTrace O ev (flushDeferred
            (processOneJob O ⟨initialShared, [], O.emptyGraph, [], false, 0⟩ cmd)))).sh, 2) := by
  rw [← h1]
  simp only [performJobsInList, walkList_single_init tro O cmd hin h0]

/-- C2 (amended): the single-task fast path agrees with submitting the lone
input-free task through the general scheduling path — same run exit status
and same executed-or-not behaviour — whenever the task's condition is
`AlwaysRun`, or its condition is `CheckDependencies` and it has a dependency
record whose fresh load is `Valid`.  (When the condition is
`CheckDependencies` but there is no record, or the record load fails, the
two paths disagree: the fast path consults the declared condition directly
and skips, while the general path treats the task as `AlwaysRun` and
executes it; see the counterexample.) -/
theorem C2_singleFastPathEquiv {γ : Type} (O : DepGraphModel γ) (cmd : Job)
    (code : Int) (hin : cmd.inputs = [])
    (hmt : ∀ (g : γ) (i : Nat), (O.markTransitive g i).2 = []) :
    (cmd.cond = Condition.Always →
      (∀ p, cmd.depFile = some p →
        (O.load O.emptyGraph cmd.id p).2 ≠ LoadResult.NeedsRebuilding) →
      ((performJobsInList (fun n => if n = 1 then [TaskEvent.finished cmd code] else [])
          O [cmd] initialShared 0).1 = (performSingleCommand code cmd).1 ∧
       (cmd.id ∈ (performJobsInList (fun n => if n = 1 then [TaskEvent.finished cmd code] else [])
          O [cmd] initialShared 0).2.1.allSubmitted
          ↔ (performSingleCommand code cmd).2 = true))) ∧
    (cmd.cond = Condition.CheckDependencies →
      (∀ p, cmd.depFile = some p → (O.load O.emptyGraph cmd.id p).2 = LoadResult.Valid) →
      cmd.depFile ≠ none →
      ((performJobsInList (fun _ => []) O [cmd] initialShared 0).1
          = (performSingleCommand code cmd).1 ∧
       (cmd.id ∈ (performJobsInList (fun _ => []) O [cmd] initialShared 0).2.1.allSubmitted
          ↔ (performSingleCommand code cmd).2 = true))) := by
  constructor
  · intro hcond hnr
    have hfast : performSingleCommand code cmd = (code, true) := by
      unfold performSingleCommand
      rw [hcond]
    have hsingle := performJobsInList_single_init
      (fun n => if n = 1 then [TaskEvent.finished cmd code] else []) O cmd hin
      (by norm_num) [TaskEvent.finished cmd code] (by norm_num)
    rw [hsingle, hfast]
    cases hdf : cmd.depFile with
    | none =>
        have hP : processOneJob O (⟨initialShared, [], O.emptyGraph, [], false, 0⟩ : InvState γ) cmd
            = ⟨⟨[cmd.id], [], [], [], [cmd.id], [cmd.id], none⟩, [cmd], O.emptyGraph, [], false, 0⟩ := by
          simp [processOneJob, hdf, schedule, findUnfinishedJob, hin, initialShared]
        have hF : flushDeferred
            (⟨⟨[cmd.id], [], [], [], [cmd.id], [cmd.id], none⟩, [cmd], O.emptyGraph, [], false, 0⟩ : InvState γ)
            = ⟨⟨[cmd.id], [], [], [], [cmd.id], [cmd.id], none⟩, [cmd], O.emptyGraph, [], false, 0⟩ := by
          simp [flushDeferred]
        rw [hP, hF]
        constructor
        · exact singleDrain_result O _ cmd code rfl rfl rfl rfl hmt
        · have hmem : cmd.id ∈ (finalize (executeTrace O [TaskEvent.finished cmd code]
              (⟨⟨[cmd.id], [], [], [], [cmd.id], [cmd.id], none⟩, [cmd], O.emptyGraph, [], false, 0⟩ : InvState γ))).sh.allSubmitted := by
            rw [finalize_allSub]
            exact executeTrace_allSub_mono O _ _ cmd.id (by simp)
          exact ⟨fun _ => rfl, fun _ => hmem⟩
    | some p =>
        rcases hl : O.load O.emptyGraph cmd.id p with ⟨g2, lr⟩
        cases lr with
        | NeedsRebuilding =>
            exact absurd (by rw [hl] : (O.load O.emptyGraph cmd.id p).2 = LoadResult.NeedsRebuilding)
              (hnr p hdf)
        | Valid =>
            have hP : processOneJob O (⟨initialShared, [], O.emptyGraph, [], false, 0⟩ : InvState γ) cmd
                = ⟨⟨[cmd.id], [], [], [], [cmd.id], [cmd.id], none⟩, [cmd],
                   O.markIntransitive g2 cmd.id, [], false, 0⟩ := by
              simp [processOneJob, hdf, hl, hcond, schedule, findUnfinishedJob, hin, initialShared]
            have hF : flushDeferred
                (⟨⟨[cmd.id], [], [], [], [cmd.id], [cmd.id], none⟩, [cmd],
                  O.markIntransitive g2 cmd.id, [], false, 0⟩ : InvState γ)
                = ⟨⟨[cmd.id], [], [], [], [cmd.id], [cmd.id], none⟩, [cmd],
                   O.markIntransitive g2 cmd.id, [], false, 0⟩ := by
              simp [flushDeferred]
            rw [hP, hF]
            constructor
            · exact singleDrain_result O _ cmd code rfl rfl rfl rfl hmt
            · have hmem : cmd.id ∈ (finalize (executeTrace O [TaskEvent.finished cmd code]
                  (⟨⟨[cmd.id], [], [], [], [cmd.id], [cmd.id], none⟩, [cmd],
                    O.markIntransitive g2 cmd.id, [], false, 0⟩ : InvState γ))).sh.allSubmitted := by
                rw [finalize_allSub]
                exact executeTrace_allSub_mono O _ _ cmd.id (by simp)
              exact ⟨fun _ => rfl, fun _ => hmem⟩
        | HadError =>
            have hP : processOneJob O (⟨initialShared, [], O.emptyGraph, [], false, 0⟩ : InvState γ) cmd
                = ⟨⟨[cmd.id], [], [], [], [cmd.id], [cmd.id], none⟩, [cmd], g2, [], true, 0⟩ := by
              simp [processOneJob, hdf, hl, schedule, findUnfinishedJob, hin, initialShared]
            have hF : flushDeferred
                (⟨⟨[cmd.id], [], [], [], [cmd.id], [cmd.id], none⟩, [cmd], g2, [], true, 0⟩ : InvState γ)
                = ⟨⟨[cmd.id], [], [], [], [cmd.id], [cmd.id], none⟩, [cmd], g2, [], true, 0⟩ := by
              simp [flushDeferred, scheduleAll]
            rw [hP, hF]
            constructor
            · exact singleDrain_result O _ cmd code rfl rfl rfl rfl hmt
            · have hmem : cmd.id ∈ (finalize (executeTrace O [TaskEvent.finished cmd code]
                  (⟨⟨[cmd.id], [], [], [], [cmd.id], [cmd.id], none⟩, [cmd], g2, [], true, 0⟩ : InvState γ))).sh.allSubmitted := by
                rw [finalize_allSub]
                exact executeTrace_allSub_mono O _ _ cmd.id (by simp)
              exact ⟨fun _ => rfl, fun _ => hmem⟩
  · intro hcond hload hdfne
    obtain ⟨p, hdf⟩ := Option.ne_none_iff_exists'.mp hdfne
    rcases hl : O.load O.emptyGraph cmd.id p with ⟨g2, lr⟩
    have hv : lr = LoadResult.Valid := by
      have h2 := hload p hdf
      rw [hl] at h2
      exact h2
    subst hv
    have hfast : performSingleCommand code cmd = (0, false) := by
      unfold performSingleCommand
      rw [hcond]
    have hsingle := performJobsInList_single_init (fun _ => []) O cmd hin rfl [] rfl
    rw [hsingle, hfast]
    have hP : processOneJob O (⟨initialShared, [], O.emptyGraph, [], false, 0⟩ : InvState γ) cmd
        = ⟨initialShared, [], g2, [cmd], false, 0⟩ := by
      simp [processOneJob, hdf, hl, hcond, insertJob, initialShared]
    have hF : flushDeferred (⟨initialShared, [], g2, [cmd], false, 0⟩ : InvState γ)
        = ⟨initialShared, [], g2, [cmd], false, 0⟩ := by
      simp [flushDeferred, initialShared]
    rw [hP, hF]
    constructor
    · simp [finalize, executeTrace, skipStep, insertId, initialShared]
    · have hsub : (finalize (executeTrace O []
          (⟨initialShared, [], g2, [cmd], false, 0⟩ : InvState γ))).sh.allSubmitted = [] := by
        rw [finalize_allSub]
        rfl
      rw [hsub]
      simp

/-! ## Agreement of the fuel-indexed runner with the recursive one -/

theorem walkListF_eq {γ : Type} (tro : Nat → List TaskEvent)
    (O : DepGraphModel γ) (n : Nat)
    (H : ∀ JL : List Job, sizeOf JL ≤ n → ∀ sh ctr,
        performJobsInListF tro O n JL sh ctr = performJobsInList tro O JL sh ctr) :
    ∀ JL : List Job, (∀ cmd ∈ JL, sizeOf cmd.inputs ≤ n) →
      ∀ (st : InvState γ) (ctr : Nat),
        walkListF O (performJobsInListF tro O n) JL st ctr
          = walkList tro O JL st ctr := by
  intro JL
  induction JL with
  | nil => intro _ st ctr; simp [walkListF, walkList]
  | cons cmd rest ih =>
      intro hmem st ctr
      have hin : sizeOf cmd.inputs ≤ n := hmem cmd (List.mem_cons_self cmd rest)
      simp only [walkListF, walkList, H cmd.inputs hin st.sh ctr]
      split
      · rfl
      · exact ih (fun c hc => hmem c (List.mem_cons_of_mem _ hc)) _ _

theorem performJobsInListF_eq {γ : Type} (tro : Nat → List TaskEvent)
    (O : DepGraphModel γ) :
    ∀ (n : Nat) (JL : List Job), sizeOf JL ≤ n → ∀ (sh : SharedState) (ctr : Nat),
      performJobsInListF tro O n JL sh ctr = performJobsInList tro O JL sh ctr := by
  intro n
  induction n with
  | zero =>
      intro JL h sh ctr
      exact absurd h (by cases JL <;> simp)
  | succ n ih =>
      intro JL hle sh ctr
      have hmem : ∀ cmd ∈ JL, sizeOf cmd.inputs ≤ n := by
        intro cmd hc
        have h1 : sizeOf cmd < sizeOf JL := List.sizeOf_lt_of_mem hc
        have h2 := Job.sizeOf_inputs_lt cmd
        omega
      have hW := walkListF_eq tro O n ih JL hmem
      simp only [performJobsInListF, performJobsInList]
      rw [hW]

/-! ## Concrete scenarios: counterexamples and witnesses -/

/-- A tool without the good-diagnostics capability. -/
def plainTool : Tool := ⟨"swift", false⟩

/-- An executor schedule delivering no events to any invocation. -/
def traceEmpty : Nat → List TaskEvent := fun _ => []

/-- A trivial tracker over a unit graph state: every load is `Valid`, every
task is marked, transitive marks dirty nobody. -/
def unitOracle : DepGraphModel Unit :=
  ⟨(), fun _ _ _ => ((), LoadResult.Valid), fun _ _ => (), fun _ _ => true,
   fun _ _ => ((), [])⟩

/-- A fresh invocation state over the unit graph. -/
def unitState : InvState Unit := ⟨initialShared, [], (), [], false, 0⟩

def jobA1 : Job := Job.mk 1 [] "bin/a" [] none Condition.Always plainTool

def jobB1 : Job := Job.mk 2 [] "bin/b" [] (some "b.swiftdeps") Condition.Always plainTool

def jobD1 : Job := Job.mk 4 [] "bin/d" [] none Condition.Always plainTool

/-- A tracker for the C1 scenario: loads are `Valid`, everything is marked,
and a transitive mark on job 2 reports job 4 as a newly dirtied dependent. -/
def oracle1 : DepGraphModel Unit :=
  ⟨(), fun _ _ _ => ((), LoadResult.Valid), fun _ _ => (), fun _ _ => true,
   fun _ i => ((), if i = 2 then [jobD1] else [])⟩

/-- The executor schedule that stops after job 1 fails with exit code 2. -/
def tracePre1 : Nat → List TaskEvent :=
  fun n => if n = 2 then [TaskEvent.finished jobA1 2] else []

/-- The executor schedule in which job 1 fails with exit code 2 and the
already-running job 2 then finishes successfully. -/
def traceFull1 : Nat → List TaskEvent :=
  fun n => if n = 2 then [TaskEvent.finished jobA1 2, TaskEvent.finished jobB1 0] else []

/-- C1 counterexample: jobs 1 and 2 are both submitted during the walk; job 1
fails with exit code 2 (result 2, as the prefix run shows); the completion of
the still-running job 2, processed after the result is already non-zero,
reloads job 2's record and submits the transitively dirtied job 4 — the set
of submitted tasks grows from `[1, 2]` to `[1, 2, 4]` by an event processed
after the result became non-zero, refuting the claim. -/
theorem C1_submissionAfterFailure_cex :
    (performJobsInList tracePre1 oracle1 [jobA1, jobB1] initialShared 0).1 = 2 ∧
    (performJobsInList tracePre1 oracle1 [jobA1, jobB1] initialShared 0).2.1.allSubmitted
      = [1, 2] ∧
    (performJobsInList traceFull1 oracle1 [jobA1, jobB1] initialShared 0).1 = 2 ∧
    (performJobsInList traceFull1 oracle1 [jobA1, jobB1] initialShared 0).2.1.allSubmitted
      = [1, 2, 4] := by
  rw [← performJobsInListF_eq tracePre1 oracle1 100000 [jobA1, jobB1] (by decide) initialShared 0,
      ← performJobsInListF_eq traceFull1 oracle1 100000 [jobA1, jobB1] (by decide) initialShared 0]
  exact ⟨rfl, rfl, rfl, rfl⟩

def jobS2 : Job := Job.mk 1 [] "bin/x" [] none Condition.CheckDependencies plainTool

/-- A trivial tracker (unit graph, all loads `Valid`, nothing marked). -/
def oracle2 : DepGraphModel Unit :=
  ⟨(), fun _ _ _ => ((), LoadResult.Valid), fun _ _ => (), fun _ _ => false,
   fun _ _ => ((), [])⟩

/-- The valid executor schedule for the general-path run of `jobS2`: the
walk submits it (no record, so the effective condition is `Always`), and it
exits with code 5. -/
def trace2 : Nat → List TaskEvent :=
  fun n => if n = 1 then [TaskEvent.finished jobS2 5] else []

/-- C2 counterexample: a lone input-free job with condition
`CheckDependencies` and no dependency record.  The general path treats it as
`Always` (no record ⇒ condition defaults to `Always`), submits and runs it,
and returns its exit code 5; the fast path consults the declared condition
and returns 0 without executing anything — the two paths differ in both
observables, refuting the claimed equivalence over every run-condition and
record configuration. -/
theorem C2_singleFastPathEquiv_cex :
    (performJobsInList trace2 oracle2 [jobS2] initialShared 0).1 = 5 ∧
    (performJobsInList trace2 oracle2 [jobS2] initialShared 0).2.1.allSubmitted = [1] ∧
    performSingleCommand 5 jobS2 = (0, false) := by
  rw [← performJobsInListF_eq trace2 oracle2 100000 [jobS2] (by decide) initialShared 0]
  exact ⟨rfl, rfl, rfl⟩

def jobB3 : Job := Job.mk 1 [] "bin/b" [] (some "b.swiftdeps") Condition.Always plainTool

def jobA3 : Job :=
  Job.mk 2 [jobB3] "bin/a" [] (some "a.swiftdeps") Condition.CheckDependencies plainTool

/-- A tracker for the C3 scenario: job 1's record load fails (`HadError`),
job 2's record loads `Valid`. -/
def oracle3 : DepGraphModel Unit :=
  ⟨(), fun _ i _ => ((), if i = 1 then LoadResult.HadError else LoadResult.Valid),
   fun _ _ => (), fun _ _ => false, fun _ _ => ((), [])⟩

/-- The executor schedule: job 1 (submitted by the inner invocation) runs
and finishes with exit code 0; the other invocations' queues are empty. -/
def trace3 : Nat → List TaskEvent :=
  fun n => if n = 1 then [TaskEvent.finished jobB3 0] else []

/-- C3 counterexample: job 2's walk first performs its input job 1 in a
nested invocation, where job 1's record load returns `HadError` — the
fallback activates there and job 1 is submitted.  Job 2 itself is visited
*after* that failing load, yet its own (outer) invocation still has
`NeedToRunEverything == false`: its record loads `Valid`, it is deferred,
skipped at finalization, and the run ends cleanly with only job 1 ever
submitted — refuting the claim that after a `HadError` load every node
visited anywhere in the task graph is submitted unconditionally. -/
theorem C3_crossLevelFallback_cex :
    (performJobsInList trace3 oracle3 [jobA3] initialShared 0).1 = 0 ∧
    (performJobsInList trace3 oracle3 [jobA3] initialShared 0).2.1.crashed = none ∧
    (performJobsInList trace3 oracle3 [jobA3] initialShared 0).2.1.allSubmitted = [1] ∧
    2 ∉ (performJobsInList trace3 oracle3 [jobA3] initialShared 0).2.1.allSubmitted := by
  rw [← performJobsInListF_eq trace3 oracle3 100000 [jobA3] (by decide) initialShared 0]
  exact ⟨rfl, rfl, rfl, by decide⟩

def jobC4 : Job := Job.mk 1 [] "c1" [] none Condition.Always plainTool

def jobM4 : Job := Job.mk 2 [jobC4] "m" [] none Condition.Always plainTool

def jobL4 : Job := Job.mk 3 [jobM4] "l" [] none Condition.Always plainTool

/-- C4 counterexample: the top-level list is `[job 1, job 3]`, with job 3
depending on job 2 which depends on job 1 (a shared dependency).  The walk
submits job 1 to the *outer* queue; while visiting job 3's inputs, the inner
invocation tries to schedule job 2, whose input job 1 is scheduled at the
outer level but not finished, so `BlockingCommands[1] = [job 2]` is
registered.  That inner invocation's own queue is empty, so its drain
completes immediately with result 0 and a non-empty blocking map — the
end-of-invocation assertion fails (modelled as `Crash.assertBlocking`, which
`finalize` sets only when `Result == 0` and the blocking map is non-empty),
refuting the claim that the assertion cannot fail for any task graph and
schedule. -/
theorem C4_assertFailure_cex :
    (performJobsInList traceEmpty oracle2 [jobC4, jobL4] initialShared 0).2.1.crashed
      = some Crash.assertBlocking := by
  rw [← performJobsInListF_eq traceEmpty oracle2 100000 [jobC4, jobL4] (by decide)
        initialShared 0]
  rfl

/-! ## Witnesses -/

def jobW2 : Job := Job.mk 9 [] "w2" [] none Condition.Always plainTool

/-- C2 witness: an input-free `Always` task with no record and exit code 7 —
the general path returns 7, like the fast path. -/
theorem C2_singleFastPathEquiv_witness :
    (performJobsInList (fun n => if n = 1 then [TaskEvent.finished jobW2 7] else [])
        unitOracle [jobW2] initialShared 0).1 = (performSingleCommand 7 jobW2).1 :=
  ((C2_singleFastPathEquiv unitOracle jobW2 7 rfl (fun _ _ => rfl)).1 rfl
    (by intro p hp; simp [jobW2, Job.depFile] at hp)).1

/-- C1 witness: a failing completion (exit code 2) from a fresh state leaves
the queue, submission log and scheduling state untouched and records the
code; a signalled completion likewise only sets the sentinel. -/
theorem C1_failedEventFrame_witness :
    ((taskFinished unitOracle unitState jobW2 2).tq = unitState.tq ∧
     (taskFinished unitOracle unitState jobW2 2).sh.allSubmitted
        = unitState.sh.allSubmitted ∧
     (taskFinished unitOracle unitState jobW2 2).sh.scheduled = unitState.sh.scheduled ∧
     (taskFinished unitOracle unitState jobW2 2).sh.finished = unitState.sh.finished ∧
     (taskFinished unitOracle unitState jobW2 2).sh.blocking = unitState.sh.blocking ∧
     (taskFinished unitOracle unitState jobW2 2).deferred = unitState.deferred ∧
     (taskFinished unitOracle unitState jobW2 2).result
        = (if unitState.result = 0 then 2 else unitState.result)) ∧
    ((taskSignalled unitState jobW2 "boom").tq = unitState.tq ∧
     (taskSignalled unitState jobW2 "boom").sh.allSubmitted
        = unitState.sh.allSubmitted ∧
     (taskSignalled unitState jobW2 "boom").sh.scheduled = unitState.sh.scheduled ∧
     (taskSignalled unitState jobW2 "boom").result = -2) :=
  C1_failedEventFrame unitOracle unitState jobW2 2 "boom" (by decide)

def jobW3 : Job := Job.mk 5 [] "w3" [] none Condition.CheckDependencies plainTool

def stW3 : InvState Unit := ⟨initialShared, [], (), [jobW3], true, 0⟩

/-- C3 witness: with the fallback active, the end-of-walk flush empties the
deferred set and gives the deferred job (id 5) a scheduling attempt. -/
theorem C3_fallbackInvocationScope_witness :
    (flushDeferred stW3).deferred = [] ∧ 5 ∈ (flushDeferred stW3).sh.attempts := by
  have h := (C3_fallbackInvocationScope traceEmpty unitOracle).1 stW3 rfl rfl
  refine ⟨h.1, ?_⟩
  have h2 := h.2 jobW3 (by simp [stW3])
  simpa [jobW3, Job.id] using h2

def jobA4W : Job := Job.mk 1 [] "a4" [] none Condition.Always plainTool

def jobX4 : Job := Job.mk 9 [] "x4" [] none Condition.Always plainTool

/-- An invocation state in which job 1 is submitted to the current queue and
some job is blocked on the (unsubmitted, unfinished) job 5. -/
def stW4 : InvState Unit :=
  ⟨⟨[1], [], [(5, [jobX4])], [], [1], [1], none⟩, [jobA4W], (), [], false, 0⟩

/-- C4 witness: after a complete successful drain of `stW4` (job 1 finishes
with exit code 0), the remaining blocker (id 5) was never submitted to this
invocation's queue. -/
theorem C4_blockingKeysUnsubmitted_witness :
    5 ∉ (executeTrace unitOracle [TaskEvent.finished jobA4W 0] stW4).tq.map Job.id :=
  C4_blockingKeysUnsubmitted unitOracle [TaskEvent.finished jobA4W 0] stW4
    (by decide) rfl (by decide) (by decide) (by decide) 5 (by decide)

def trW5 : List TaskEvent :=
  [TaskEvent.finished jobW2 3, TaskEvent.signalled jobW3 "segmentation fault"]

/-- C5 witness: a drain containing both a non-zero exit (code 3) and a
signal ends with the sentinel result `-2`. -/
theorem C5_resultPriority_witness :
    (executeTrace unitOracle trW5 unitState).result = -2 :=
  (C5_resultPriority unitOracle trW5 unitState rfl (by decide)).2 (by decide)

def jobW7 : Job := Job.mk 11 [] "w7" [] none Condition.Always plainTool

/-- C7 witness: a task that is unscheduled and whose (empty) dependency list
is finished is submitted by the scheduling attempt. -/
theorem C7_readinessRule_witness :
    (schedule unitState jobW7).tq = unitState.tq ++ [jobW7] :=
  (C7_readinessRule unitState jobW7).1.mpr ⟨by decide, by decide⟩

def jobW8 : Job := Job.mk 12 [] "w8" [] (some "w8.swiftdeps") Condition.Always plainTool

/-- C8 witness: the success path of the completion handler is the
unblock-then-reload composition at a concrete task with a record. -/
theorem C8_captureBeforeReload_witness :
    taskFinished unitOracle unitState jobW8 0
      = reloadAndMark unitOracle (finishAndUnblock unitState jobW8) jobW8 :=
  (C8_captureBeforeReload unitOracle unitOracle unitState jobW8 "w8.swiftdeps" ()
    rfl rfl rfl rfl rfl rfl).1

def goodTool : Tool := ⟨"swift-frontend", true⟩

def jobW9 : Job := Job.mk 13 [] "w9" [] none Condition.Always goodTool

/-- C9 witness: a tool with good diagnostics still gets the generic
command-failed diagnostic for exit code 2 (only code 1 is covered). -/
theorem C9_failureDiagnostic_witness :
    (taskFinished unitOracle unitState jobW9 2).sh.diags
      = unitState.sh.diags ++ (if jobW9.tool.goodDiags = true ∧ (2 : Int) = 1 then []
                               else [Diag.commandFailed jobW9.tool.name 2]) ∧
    ((taskFinished unitOracle unitState jobW9 2).sh.diags ≠ unitState.sh.diags
      ↔ ¬ (jobW9.tool.goodDiags = true ∧ (2 : Int) = 1)) :=
  C9_failureDiagnostic unitOracle unitState jobW9 2 (by decide)

def jobW10 : Job := Job.mk 14 [] "w10" [] none Condition.CheckDependencies plainTool

/-- C10 witness: the fast path for a lone `CheckDependencies` command
removes no temporary file and returns 0. -/
theorem C10_fastPathNoTempRemoval_witness :
    (performJobs traceEmpty unitOracle 7 [jobW10] OutputLevel.Normal 4 true
        ["t1.o", "t2.o"]).2.2 = [] ∧
    (performJobs traceEmpty unitOracle 7 [jobW10] OutputLevel.Normal 4 true
        ["t1.o", "t2.o"]).1 = 0 :=
  ⟨(C10_fastPathNoTempRemoval traceEmpty unitOracle 7 jobW10 OutputLevel.Normal 4 true
      ["t1.o", "t2.o"] (by decide) rfl).1,
   (C10_fastPathNoTempRemoval traceEmpty unitOracle 7 jobW10 OutputLevel.Normal 4 true
      ["t1.o", "t2.o"] (by decide) rfl).2 rfl⟩
